import Mathlib

/-!
Verification of the audio-to-caption timing alignment pipeline of the
Nuntius-ChannelTracker repository (worker `pravus-generator`).

The Python sources embedded here (shallowly, over exact rational arithmetic
in place of IEEE floats) are:

* `src/utils/elevenlabs.py` — `adjust_elevenlabs_timing`, in particular the
  inner `map_timestamp_to_compressed_timeline` function and the
  character-level remap loop;
* `src/utils/audio_process.py` — `AudioProcessor.remove_silence`;
* `src/utils/speech_to_text.py` — `extract_title_duration_from_document`,
  `apply_long_word_size_tags`, `apply_quotes_from_original_text`, and the
  inter-word gap-elimination post-pass of `transcribe`;
* `src/utils/audio.py` — `adjust_time_in_dict` (speed rescaling of the
  persisted transcript JSON) and the title-duration rescale.

Conventions: Python `float` seconds are modelled as `ℚ` (the algorithms use
only +, -, *, / and comparisons, so rational arithmetic is an exact model of
the intended real-number semantics); audio sample data is modelled at
one-millisecond granularity; pydub's silence detector is an external
collaborator and its output (the list of detected silence ranges) is taken
as an input.
-/

namespace Nuntius

/-- A `{start, end}` time span in seconds (pycaps `TimeFragment`; the Python
field `end` is a reserved word in Lean, rendered `stop`). -/
structure TimeFragment where
  start : ℚ
  stop : ℚ
  deriving DecidableEq, Repr, Inhabited

/-- A transcript word (pycaps `Word`): text, time span, semantic tags.
Python's tag set is modelled as a duplicate-free list with set-insert. -/
structure Word where
  text : String
  time : TimeFragment
  semantic_tags : List String
  deriving DecidableEq, Repr, Inhabited

/-- Python `set.add` on the semantic-tag set. -/
def addTag (w : Word) (t : String) : Word :=
  if t ∈ w.semantic_tags then w else { w with semantic_tags := w.semantic_tags ++ [t] }

/-! ## Timing remapper: `map_timestamp_to_compressed_timeline`
(`elevenlabs.py`, inside `adjust_elevenlabs_timing`)

The Python loop walks the keep-intervals (`timing_segments`, seconds in the
original timeline) accumulating `compressed_time`; `mapGo` is that loop after
the leading `original_time < timing_segments[0][0]` guard has been passed. -/

/-- The accumulator loop of `map_timestamp_to_compressed_timeline`:
for each segment, return position inside it, or the accumulated compressed
time when the timestamp precedes the segment (removed silence), otherwise
add the segment duration plus the 50 ms inserted gap (except after the last
segment) and continue.  After the loop: the accumulated total. -/
def mapGo : List (ℚ × ℚ) → ℚ → ℚ → ℚ
  | [], _, acc => acc
  | (s, e) :: rest, t, acc =>
    if s ≤ t ∧ t ≤ e then acc + (t - s)
    else if t < s then acc
    else mapGo rest t (acc + (e - s) + if rest.isEmpty then 0 else 1/20)

/-- `map_timestamp_to_compressed_timeline(original_time)`: `none` when the
segment list is empty or the time falls before the first keep-interval. -/
def mapTimestamp (segs : List (ℚ × ℚ)) (t : ℚ) : Option ℚ :=
  match segs with
  | [] => none
  | (s, _) :: _ => if t < s then none else some (mapGo segs t 0)

/-- Duration of one keep-interval. -/
def segDur (p : ℚ × ℚ) : ℚ := p.2 - p.1

/-- Sum of keep-interval durations. -/
def sumDur (segs : List (ℚ × ℚ)) : ℚ := (segs.map segDur).sum

/-- Compressed-timeline position of the start of keep-interval `i`: the
durations of the keep-intervals before `i` plus one 50 ms gap per preceding
keep-interval. -/
def compressedStart (segs : List (ℚ × ℚ)) (i : ℕ) : ℚ :=
  sumDur (segs.take i) + i * (1/20)

/-- Total compressed duration: all keep durations plus `0.05 * (N - 1)`. -/
def totalCompressed (segs : List (ℚ × ℚ)) : ℚ :=
  sumDur segs + (segs.length - 1 : ℕ) * (1/20)

/-- Well-formed keep-interval list: each interval has `start ≤ end` and the
list is ordered and non-overlapping (strict gaps between intervals). -/
def segsWF (segs : List (ℚ × ℚ)) : Prop :=
  (∀ p ∈ segs, p.1 ≤ p.2) ∧ List.Chain' (fun a b => a.2 < b.1) segs

instance (segs : List (ℚ × ℚ)) : Decidable (segsWF segs) :=
  inferInstanceAs (Decidable (_ ∧ _))

/-- One unfolding step of the `map_timestamp_to_compressed_timeline` loop. -/
theorem mapGo_cons (p : ℚ × ℚ) (rest : List (ℚ × ℚ)) (t acc : ℚ) :
    mapGo (p :: rest) t acc =
      if p.1 ≤ t ∧ t ≤ p.2 then acc + (t - p.1)
      else if t < p.1 then acc
      else mapGo rest t (acc + (p.2 - p.1) + if rest.isEmpty then 0 else 1/20) := by
  rcases p with ⟨s, e⟩
  rfl

theorem mapGo_acc (segs : List (ℚ × ℚ)) (t : ℚ) :
    ∀ a, mapGo segs t a = a + mapGo segs t 0 := by
  induction segs with
  | nil => intro a; simp [mapGo]
  | cons p rest ih =>
    intro a
    obtain ⟨s, e⟩ := p
    by_cases h1 : s ≤ t ∧ t ≤ e
    · simp only [mapGo, if_pos h1]; ring
    · by_cases h2 : t < s
      · simp [mapGo, h1, h2]
      · simp only [mapGo, if_neg h1, if_neg h2]
        rw [ih (a + (e - s) + if rest.isEmpty then 0 else 1/20),
          ih (0 + (e - s) + if rest.isEmpty then 0 else 1/20)]
        ring

theorem mapGo_ge_acc (segs : List (ℚ × ℚ)) (t : ℚ)
    (hwf : ∀ p ∈ segs, p.1 ≤ p.2) : ∀ a, a ≤ mapGo segs t a := by
  induction segs with
  | nil => intro a; simp [mapGo]
  | cons p rest ih =>
    intro a
    obtain ⟨s, e⟩ := p
    have hse : s ≤ e := hwf (s, e) (by simp)
    have hrest : ∀ q ∈ rest, q.1 ≤ q.2 := fun q hq => hwf q (by simp [hq])
    by_cases h1 : s ≤ t ∧ t ≤ e
    · simp only [mapGo, if_pos h1]
      linarith [h1.1]
    · by_cases h2 : t < s
      · simp [mapGo, h1, h2]
      · simp only [mapGo, if_neg h1, if_neg h2]
        refine le_trans ?_ (ih hrest _)
        have : (0 : ℚ) ≤ if rest.isEmpty then 0 else 1/20 := by
          split <;> norm_num
        linarith

theorem mapGo_mono (segs : List (ℚ × ℚ)) (hwf : ∀ p ∈ segs, p.1 ≤ p.2)
    (t₁ t₂ : ℚ) (ht : t₁ ≤ t₂) : ∀ a, mapGo segs t₁ a ≤ mapGo segs t₂ a := by
  induction segs with
  | nil => intro a; simp [mapGo]
  | cons p rest ih =>
    intro a
    obtain ⟨s, e⟩ := p
    have hse : s ≤ e := hwf (s, e) (by simp)
    have hrest : ∀ q ∈ rest, q.1 ≤ q.2 := fun q hq => hwf q (by simp [hq])
    have hgap : (0 : ℚ) ≤ if rest.isEmpty then 0 else 1/20 := by
      split <;> norm_num
    by_cases h2a : s ≤ t₂ ∧ t₂ ≤ e
    · -- t₂ inside this segment
      by_cases h1a : s ≤ t₁ ∧ t₁ ≤ e
      · simp only [mapGo, if_pos h1a, if_pos h2a]; linarith
      · have h1b : t₁ < s := by
          rcases not_and_or.mp h1a with h | h
          · exact lt_of_not_le h
          · exact absurd (le_trans ht h2a.2) h
        simp only [mapGo, if_neg h1a, if_pos h2a, if_pos h1b]
        linarith [h2a.1]
    · by_cases h2b : t₂ < s
      · -- t₂ before this segment, hence so is t₁
        have h1b : t₁ < s := lt_of_le_of_lt ht h2b
        have h1a : ¬(s ≤ t₁ ∧ t₁ ≤ e) := by
          rintro ⟨hs, _⟩; exact absurd h1b (not_lt.mpr hs)
        simp [mapGo, h1a, h1b, h2a, h2b]
      · -- t₂ after this segment
        simp only [mapGo, if_neg h2a, if_neg h2b]
        by_cases h1a : s ≤ t₁ ∧ t₁ ≤ e
        · simp only [if_pos h1a]
          refine le_trans ?_ (mapGo_ge_acc rest t₂ hrest _)
          linarith [h1a.2]
        · by_cases h1b : t₁ < s
          · simp only [if_neg h1a, if_pos h1b]
            refine le_trans ?_ (mapGo_ge_acc rest t₂ hrest _)
            linarith
          · simp only [if_neg h1a, if_neg h1b]
            exact ih hrest _

theorem mapGo_nonneg (segs : List (ℚ × ℚ)) (t : ℚ)
    (hwf : ∀ p ∈ segs, p.1 ≤ p.2) (a : ℚ) (ha : 0 ≤ a) :
    0 ≤ mapGo segs t a :=
  le_trans ha (mapGo_ge_acc segs t hwf a)

/-- `map_timestamp` returns `none` exactly for an empty segment list or a
time strictly before the first keep-interval. -/
theorem mapTimestamp_eq_none_iff (segs : List (ℚ × ℚ)) (t : ℚ) :
    mapTimestamp segs t = none ↔
      (segs = [] ∨ ∃ s e rest, segs = (s, e) :: rest ∧ t < s) := by
  match segs with
  | [] => simp [mapTimestamp]
  | (s, e) :: rest =>
    simp only [mapTimestamp]
    constructor
    · intro h
      by_cases hts : t < s
      · exact Or.inr ⟨s, e, rest, rfl, hts⟩
      · simp [hts] at h
    · rintro (h | ⟨s', e', rest', heq, hts⟩)
      · exact absurd h (by simp)
      · obtain ⟨rfl, rfl, rfl⟩ : s' = s ∧ e' = e ∧ rest' = rest := by
          injection heq with h1 h2; injection h1 with h3 h4
          exact ⟨h3.symm, h4.symm, h2.symm⟩
        simp [hts]

theorem segsWF_tail {p : ℚ × ℚ} {rest : List (ℚ × ℚ)} (h : segsWF (p :: rest)) :
    segsWF rest :=
  ⟨fun q hq => h.1 q (List.mem_cons_of_mem _ hq), (List.chain'_cons'.mp h.2).2⟩

theorem segsWF_head_lt {p : ℚ × ℚ} {rest : List (ℚ × ℚ)} (h : segsWF (p :: rest)) :
    ∀ q ∈ rest, p.2 < q.1 := by
  induction rest generalizing p with
  | nil => simp
  | cons q rest' ih =>
    intro r hr
    have h2 : p.2 < q.1 := (List.chain'_cons.mp h.2).1
    rcases List.mem_cons.mp hr with rfl | hr'
    · exact h2
    · have hq : segsWF (q :: rest') := segsWF_tail h
      have h3 : q.1 ≤ q.2 := hq.1 q (by simp)
      exact lt_trans (lt_of_lt_of_le h2 h3) (ih hq r hr')

theorem compressedStart_cons (p : ℚ × ℚ) (rest : List (ℚ × ℚ)) (i : ℕ) :
    compressedStart (p :: rest) (i + 1) = segDur p + 1/20 + compressedStart rest i := by
  simp only [compressedStart, sumDur, List.take_succ_cons, List.map_cons, List.sum_cons]
  push_cast
  ring


theorem mapGo_inside (segs : List (ℚ × ℚ)) (i : ℕ) (hi : i < segs.length) (t : ℚ)
    (hwf : segsWF segs) (h1 : (segs.get ⟨i, hi⟩).1 ≤ t) (h2 : t ≤ (segs.get ⟨i, hi⟩).2) :
    mapGo segs t 0 = compressedStart segs i + (t - (segs.get ⟨i, hi⟩).1) := by
  induction segs generalizing i with
  | nil => exact absurd hi (by simp)
  | cons p rest ih =>
    obtain ⟨s, e⟩ := p
    match i with
    | 0 =>
      simp only [List.get] at h1 h2
      rw [mapGo_cons, if_pos (And.intro h1 h2)]
      simp [compressedStart, sumDur]
    | i + 1 =>
      have hi' : i < rest.length := Nat.lt_of_succ_lt_succ hi
      simp only [List.get] at h1 h2 ⊢
      have hmem : rest.get ⟨i, hi'⟩ ∈ rest := List.get_mem _ _ _
      have he : e < (rest.get ⟨i, hi'⟩).1 := segsWF_head_lt hwf _ hmem
      have hse : s ≤ e := hwf.1 (s, e) (by simp)
      have het : e < t := lt_of_lt_of_le he h1
      have hne : rest.isEmpty = false := by
        cases rest
        · exact absurd hi' (by simp)
        · rfl
      have hnotin : ¬(s ≤ t ∧ t ≤ e) := fun hin => absurd het (not_lt.mpr hin.2)
      have hnotlt : ¬(t < s) := not_lt.mpr (le_trans hse (le_of_lt het))
      rw [mapGo_cons, if_neg hnotin, if_neg hnotlt, hne]
      simp only [Bool.false_eq_true, if_false]
      rw [mapGo_acc, ih i hi' (segsWF_tail hwf) h1 h2, compressedStart_cons]
      simp only [segDur]
      ring

theorem mapGo_gap (segs : List (ℚ × ℚ)) (i : ℕ) (hi : i + 1 < segs.length) (t : ℚ)
    (hwf : segsWF segs) (h1 : (segs.get ⟨i, Nat.lt_of_succ_lt hi⟩).2 < t)
    (h2 : t < (segs.get ⟨i + 1, hi⟩).1) :
    mapGo segs t 0 = compressedStart segs (i + 1) := by
  induction segs generalizing i with
  | nil => exact absurd hi (by simp)
  | cons p rest ih =>
    obtain ⟨s, e⟩ := p
    have hse : s ≤ e := hwf.1 (s, e) (by simp)
    match i with
    | 0 =>
      match rest, hi, h1, h2 with
      | q :: rest', _, h1, h2 =>
        simp only [List.get] at h1 h2
        have hnotin : ¬(s ≤ t ∧ t ≤ e) := fun hin => absurd h1 (not_lt.mpr hin.2)
        have hnotlt : ¬(t < s) := not_lt.mpr (le_trans hse (le_of_lt h1))
        rw [mapGo_cons, if_neg hnotin, if_neg hnotlt]
        simp only [List.isEmpty_cons, Bool.false_eq_true, if_false]
        have hnotin' : ¬(q.1 ≤ t ∧ t ≤ q.2) := fun hin => absurd h2 (not_lt.mpr hin.1)
        rw [mapGo_cons, if_neg hnotin', if_pos h2]
        simp only [compressedStart, sumDur, List.take_succ_cons, List.take_zero,
          List.map_cons, List.map_nil, List.sum_cons, List.sum_nil, segDur, Nat.cast_one]
        ring
    | i + 1 =>
      have hi' : i + 1 < rest.length := Nat.lt_of_succ_lt_succ hi
      simp only [List.get] at h1 h2 ⊢
      have hmem : rest.get ⟨i, Nat.lt_of_succ_lt hi'⟩ ∈ rest := List.get_mem _ _ _
      have he : e < (rest.get ⟨i, Nat.lt_of_succ_lt hi'⟩).1 := segsWF_head_lt hwf _ hmem
      have hwr : (rest.get ⟨i, Nat.lt_of_succ_lt hi'⟩).1 ≤ (rest.get ⟨i, Nat.lt_of_succ_lt hi'⟩).2 :=
        hwf.1 _ (List.mem_cons_of_mem _ hmem)
      have het : e < t := lt_of_lt_of_le (lt_of_lt_of_le he hwr) (le_of_lt h1)
      have hne : rest.isEmpty = false := by
        cases rest
        · exact absurd hi' (by simp)
        · rfl
      have hnotin : ¬(s ≤ t ∧ t ≤ e) := fun hin => absurd het (not_lt.mpr hin.2)
      have hnotlt : ¬(t < s) := not_lt.mpr (le_trans hse (le_of_lt het))
      rw [mapGo_cons, if_neg hnotin, if_neg hnotlt, hne]
      simp only [Bool.false_eq_true, if_false]
      rw [mapGo_acc, ih i hi' (segsWF_tail hwf) h1 h2, compressedStart_cons]
      simp only [segDur]
      ring

theorem mapGo_after (segs : List (ℚ × ℚ)) (h : segs ≠ []) (t : ℚ)
    (hwf : segsWF segs) (h1 : (segs.getLast h).2 < t) :
    mapGo segs t 0 = totalCompressed segs := by
  induction segs with
  | nil => exact absurd rfl h
  | cons p rest ih =>
    obtain ⟨s, e⟩ := p
    have hse : s ≤ e := hwf.1 (s, e) (by simp)
    match rest, ih with
    | [], _ =>
      simp only [List.getLast] at h1
      have hnotin : ¬(s ≤ t ∧ t ≤ e) := fun hin => absurd h1 (not_lt.mpr hin.2)
      have hnotlt : ¬(t < s) := not_lt.mpr (le_trans hse (le_of_lt h1))
      rw [mapGo_cons, if_neg hnotin, if_neg hnotlt]
      simp [mapGo, totalCompressed, sumDur, segDur]
    | q :: rest', ih =>
      have hrne : q :: rest' ≠ [] := by simp
      have hlast : ((s, e) :: q :: rest').getLast h = (q :: rest').getLast hrne :=
        List.getLast_cons hrne
      rw [hlast] at h1
      have hlmem : (q :: rest').getLast hrne ∈ q :: rest' := List.getLast_mem hrne
      have he : e < ((q :: rest').getLast hrne).1 := segsWF_head_lt hwf _ hlmem
      have hwl : ((q :: rest').getLast hrne).1 ≤ ((q :: rest').getLast hrne).2 :=
        hwf.1 _ (List.mem_cons_of_mem _ hlmem)
      have het : e < t := lt_of_lt_of_le (lt_of_lt_of_le he hwl) (le_of_lt h1)
      have hnotin : ¬(s ≤ t ∧ t ≤ e) := fun hin => absurd het (not_lt.mpr hin.2)
      have hnotlt : ¬(t < s) := not_lt.mpr (le_trans hse (le_of_lt het))
      rw [mapGo_cons, if_neg hnotin, if_neg hnotlt]
      simp only [List.isEmpty_cons, Bool.false_eq_true, if_false]
      rw [mapGo_acc, ih hrne (segsWF_tail hwf) h1]
      simp only [totalCompressed, sumDur, List.map_cons, List.sum_cons, List.length_cons,
        Nat.add_sub_cancel, segDur]
      push_cast
      ring

/-- Any keep-interval start in a well-formed list is at least the head start
(used to discharge the `original_time < timing_segments[0][0]` guard). -/
theorem head_start_le (s e : ℚ) (rest : List (ℚ × ℚ)) (hwf : segsWF ((s, e) :: rest))
    (i : ℕ) (hi : i < ((s, e) :: rest).length) : s ≤ (((s, e) :: rest).get ⟨i, hi⟩).1 := by
  match i with
  | 0 => simp
  | i + 1 =>
    have hi' : i < rest.length := Nat.lt_of_succ_lt_succ hi
    have hmem : rest.get ⟨i, hi'⟩ ∈ rest := List.get_mem _ _ _
    have hse : s ≤ e := hwf.1 (s, e) (by simp)
    exact le_of_lt (lt_of_le_of_lt hse (segsWF_head_lt hwf _ hmem))

/-- **C1.** For every ordered, non-overlapping keep-interval list,
`map_timestamp_to_compressed_timeline` implements the piecewise reference
definition: inside keep-interval `i` it returns (sum of durations of
keep-intervals before `i`) + (gaps before `i`) * 0.05 + (t - start of `i`);
before the first keep-interval it returns `None`; in a removed span between
keep-intervals `i` and `i+1` it returns the compressed-timeline position of
keep-interval `i+1`'s start; after the last keep-interval it returns the
total compressed duration = sum of all keep durations + 0.05 * (N-1).
Concretely, for keep-intervals 0–4 s and 6–10 s, original time 7.0 s maps
to 5.05 s. -/
theorem map_timestamp_piecewise :
    (∀ segs : List (ℚ × ℚ), segsWF segs →
      (∀ (i : ℕ) (hi : i < segs.length) (t : ℚ),
          (segs.get ⟨i, hi⟩).1 ≤ t → t ≤ (segs.get ⟨i, hi⟩).2 →
          mapTimestamp segs t = some (compressedStart segs i + (t - (segs.get ⟨i, hi⟩).1))) ∧
      (∀ (s e : ℚ) (rest : List (ℚ × ℚ)) (t : ℚ), segs = (s, e) :: rest → t < s →
          mapTimestamp segs t = none) ∧
      (∀ (i : ℕ) (hi : i + 1 < segs.length) (t : ℚ),
          (segs.get ⟨i, Nat.lt_of_succ_lt hi⟩).2 < t → t < (segs.get ⟨i + 1, hi⟩).1 →
          mapTimestamp segs t = some (compressedStart segs (i + 1))) ∧
      (∀ (h : segs ≠ []) (t : ℚ), (segs.getLast h).2 < t →
          mapTimestamp segs t = some (totalCompressed segs))) ∧
    mapTimestamp [(0, 4), (6, 10)] 7 = some (101/20) := by
  constructor
  · intro segs hwf
    refine ⟨?_, ?_, ?_, ?_⟩
    · intro i hi t h1 h2
      match segs, hwf, hi, h1, h2 with
      | (s, e) :: rest, hwf, hi, h1, h2 =>
        have hguard : ¬(t < s) :=
          not_lt.mpr (le_trans (head_start_le s e rest hwf i hi) h1)
        simp only [mapTimestamp, if_neg hguard]
        exact congrArg some (mapGo_inside _ i hi t hwf h1 h2)
    · rintro s e rest t rfl hts
      simp [mapTimestamp, hts]
    · intro i hi t h1 h2
      match segs, hwf, hi, h1, h2 with
      | (s, e) :: rest, hwf, hi, h1, h2 =>
        have hs : s ≤ (((s, e) :: rest).get ⟨i, Nat.lt_of_succ_lt hi⟩).1 :=
          head_start_le s e rest hwf i (Nat.lt_of_succ_lt hi)
        have hwi : (((s, e) :: rest).get ⟨i, Nat.lt_of_succ_lt hi⟩).1 ≤
            (((s, e) :: rest).get ⟨i, Nat.lt_of_succ_lt hi⟩).2 :=
          hwf.1 _ (List.get_mem _ _ _)
        have hguard : ¬(t < s) := not_lt.mpr (le_of_lt (lt_of_le_of_lt (le_trans hs hwi) h1))
        simp only [mapTimestamp, if_neg hguard]
        exact congrArg some (mapGo_gap _ i hi t hwf h1 h2)
    · intro h t h1
      match segs, hwf, h, h1 with
      | (s, e) :: rest, hwf, h, h1 =>
        have hlmem : ((s, e) :: rest).getLast h ∈ (s, e) :: rest := List.getLast_mem h
        have hs : s ≤ (((s, e) :: rest).getLast h).2 := by
          rcases List.mem_cons.mp hlmem with heq | hmem
          · rw [heq]; exact hwf.1 (s, e) (by simp)
          · exact le_trans (hwf.1 (s, e) (by simp))
              (le_of_lt (lt_of_lt_of_le (segsWF_head_lt hwf _ hmem)
                (hwf.1 _ (List.mem_cons_of_mem _ hmem))))
        have hguard : ¬(t < s) := not_lt.mpr (le_of_lt (lt_of_le_of_lt hs h1))
        simp only [mapTimestamp, if_neg hguard]
        exact congrArg some (mapGo_after _ h t hwf h1)
  · norm_num [mapTimestamp, mapGo]

/-- Witness for C1: the keep-interval list `[(0,4),(6,10)]` satisfies the
well-formedness hypothesis, and instantiating the "inside interval i" case
at i = 1, t = 7 evaluates to 5.05 s. -/
theorem map_timestamp_piecewise_witness :
    segsWF [((0 : ℚ), 4), (6, 10)] ∧
      mapTimestamp [((0 : ℚ), 4), (6, 10)] 7 = some (101/20) := by
  have hwf : segsWF [((0 : ℚ), 4), (6, 10)] := by
    constructor
    · intro p hp
      rcases List.mem_cons.mp hp with rfl | hp
      · norm_num
      · rcases List.mem_cons.mp hp with rfl | hp
        · norm_num
        · simp at hp
    · norm_num [List.chain'_cons]
  refine ⟨hwf, ?_⟩
  have h := (map_timestamp_piecewise.1 [((0 : ℚ), 4), (6, 10)] hwf).1 1 (by norm_num) 7
    (by norm_num) (by norm_num)
  rw [h]
  norm_num [compressedStart, sumDur, segDur]

/-! ## Character-level remap (the processing loop of `adjust_elevenlabs_timing`,
`elevenlabs.py`)

A character alignment is a list of `(character, start_time, end_time)`
triples (the Python code zips three equal-length parallel lists). -/

/-- Strict comparison against the running minimum distance; the initial
`float('inf')` is modelled as `none`. -/
def distLt (d : ℚ) : Option ℚ → Bool
  | none => true
  | some m => decide (d < m)

/-- The "closest valid segment boundary" search for a character that falls
entirely inside removed silence: walk all keep-intervals, tracking the
minimum `|start_time - boundary|` (each interval's start is checked before
its end, updates only on strict improvement), remembering the mapped
compressed time of the current best boundary. -/
def closestSearch (segs : List (ℚ × ℚ)) (t : ℚ) :
    List (ℚ × ℚ) → Option ℚ × Option ℚ → Option ℚ × Option ℚ
  | [], acc => acc
  | (s, e) :: rest, acc =>
    let acc1 := if distLt |t - s| acc.1 then (some |t - s|, mapTimestamp segs s) else acc
    let acc2 := if distLt |t - e| acc1.1 then (some |t - e|, mapTimestamp segs e) else acc1
    closestSearch segs t rest acc2

/-- `closest_time` of the both-endpoints-in-silence branch. -/
def closestTime (segs : List (ℚ × ℚ)) (t : ℚ) : Option ℚ :=
  (closestSearch segs t segs (none, none)).2

/-- Per-character timestamp adjustment of `adjust_elevenlabs_timing`
(endpoint part): map both endpoints; a half-mapped character gets a
synthetic 10 ms span; a character entirely inside removed silence gets the
mapped nearest keep boundary (or `(0.0, 0.01)` when no boundary maps);
finally `end < start` is repaired to a 10 ms span. -/
def remapPair (segs : List (ℚ × ℚ)) (st en : ℚ) : ℚ × ℚ :=
  match mapTimestamp segs st, mapTimestamp segs en with
  | some ns, some ne => if ne < ns then (ns, ns + 1/100) else (ns, ne)
  | some ns, none => (ns, ns + 1/100)
  | none, some ne =>
    if ne < max 0 (ne - 1/100) then (max 0 (ne - 1/100), max 0 (ne - 1/100) + 1/100)
    else (max 0 (ne - 1/100), ne)
  | none, none =>
    match closestTime segs st with
    | some ct => (ct, ct + 1/100)
    | none => (0, 1/100)

/-- One character of the `adjust_elevenlabs_timing` loop: the character
itself is always kept, its endpoints are remapped. -/
def remapChar (segs : List (ℚ × ℚ)) (x : Char × ℚ × ℚ) : Char × ℚ × ℚ :=
  (x.1, remapPair segs x.2.1 x.2.2)

/-- The character-processing loop of `adjust_elevenlabs_timing`: with an
empty keep-interval list the response is returned unchanged; otherwise
every character of the alignment is remapped (none is dropped). -/
def adjust_elevenlabs_timing (segs : List (ℚ × ℚ)) (chars : List (Char × ℚ × ℚ)) :
    List (Char × ℚ × ℚ) :=
  if segs.isEmpty then chars else chars.map (remapChar segs)

/-- All keep-interval boundaries (starts and ends) in search order. -/
def segBoundaries (segs : List (ℚ × ℚ)) : List ℚ :=
  segs.flatMap fun p => [p.1, p.2]

theorem remapPair_le (segs : List (ℚ × ℚ)) (st en : ℚ) :
    (remapPair segs st en).1 ≤ (remapPair segs st en).2 := by
  rcases h1 : mapTimestamp segs st with _ | ns <;> rcases h2 : mapTimestamp segs en with _ | ne
  · rcases h3 : closestTime segs st with _ | ct <;>
      simp only [remapPair, h1, h2, h3] <;> norm_num
  · by_cases h4 : ne < max 0 (ne - 1/100) <;>
      simp only [remapPair, h1, h2, if_pos, if_neg, h4, if_true, if_false] <;>
      [norm_num; exact le_of_not_lt h4]
  · simp only [remapPair, h1, h2]
    norm_num
  · by_cases h4 : ne < ns <;>
      simp only [remapPair, h1, h2, h4, if_true, if_false] <;>
      [norm_num; exact le_of_not_lt h4]

theorem mapTimestamp_cons_eq_none_iff (s e : ℚ) (rest : List (ℚ × ℚ)) (t : ℚ) :
    mapTimestamp ((s, e) :: rest) t = none ↔ t < s := by
  simp only [mapTimestamp]
  by_cases h : t < s <;> simp [h]

/-- The head keep-interval's start maps to compressed time 0. -/
theorem mapTimestamp_head_start (s e : ℚ) (rest : List (ℚ × ℚ))
    (hwf : segsWF ((s, e) :: rest)) : mapTimestamp ((s, e) :: rest) s = some 0 := by
  have hse : s ≤ e := hwf.1 (s, e) (by simp)
  simp only [mapTimestamp, lt_self_iff_false, if_false]
  rw [mapGo_cons, if_pos ⟨le_refl s, hse⟩]
  norm_num

/-- In a well-formed list every boundary is at least the head start. -/
theorem segBoundaries_ge (s e : ℚ) (rest : List (ℚ × ℚ))
    (hwf : segsWF ((s, e) :: rest)) : ∀ b ∈ segBoundaries ((s, e) :: rest), s ≤ b := by
  intro b hb
  simp only [segBoundaries, List.flatMap_cons, List.mem_append, List.mem_cons,
    List.not_mem_nil, or_false, List.mem_flatMap] at hb
  rcases hb with (rfl | rfl) | ⟨q, hq, hbq⟩
  · exact le_refl _
  · exact hwf.1 (s, b) (by simp)
  · have h1 : s ≤ q.1 :=
      le_of_lt (lt_of_le_of_lt (hwf.1 (s, e) (by simp)) (segsWF_head_lt hwf _ hq))
    have h2 : q.1 ≤ q.2 := hwf.1 q (List.mem_cons_of_mem _ hq)
    rcases hbq with rfl | rfl
    · exact h1
    · exact le_trans h1 h2

/-- The closest-boundary fold never updates once every remaining boundary is
at distance at least the current minimum (updates are strict improvements). -/
theorem closestSearch_const (segs : List (ℚ × ℚ)) (t d : ℚ) (v : Option ℚ)
    (rest2 : List (ℚ × ℚ)) (hb : ∀ q ∈ rest2, d ≤ |t - q.1| ∧ d ≤ |t - q.2|) :
    closestSearch segs t rest2 (some d, v) = (some d, v) := by
  induction rest2 with
  | nil => rfl
  | cons q rest ih =>
    obtain ⟨s', e'⟩ := q
    have h1 := (hb (s', e') (by simp)).1
    have h2 := (hb (s', e') (by simp)).2
    have hd1 : distLt |t - s'| (some d) = false := by
      simp [distLt, not_lt.mpr h1]
    have hd2 : distLt |t - e'| (some d) = false := by
      simp [distLt, not_lt.mpr h2]
    simp only [closestSearch, hd1, hd2, Bool.false_eq_true, if_false]
    exact ih fun q hq => hb q (by simp [hq])

/-- For a time before the first keep-interval of a well-formed list, the
closest-boundary search settles on the first interval's start, whose
compressed image is 0. -/
theorem closestTime_of_before (s e : ℚ) (rest : List (ℚ × ℚ))
    (hwf : segsWF ((s, e) :: rest)) (t : ℚ) (ht : t < s) :
    closestTime ((s, e) :: rest) t = some 0 := by
  have hse : s ≤ e := hwf.1 (s, e) (by simp)
  have habs : ∀ b : ℚ, t ≤ b → |t - b| = b - t := fun b hb => by
    rw [abs_sub_comm]
    exact abs_of_nonneg (by linarith)
  have h1 : distLt |t - s| none = true := rfl
  have h2 : distLt |t - e| (some |t - s|) = false := by
    simp only [distLt, decide_eq_false_iff_not, not_lt]
    rw [habs s (le_of_lt ht), habs e (by linarith)]
    linarith
  have hstep : closestSearch ((s, e) :: rest) t ((s, e) :: rest) (none, none) =
      closestSearch ((s, e) :: rest) t rest (some |t - s|, some 0) := by
    simp only [closestSearch, h1, if_true, h2, Bool.false_eq_true, if_false,
      mapTimestamp_head_start s e rest hwf]
  have hball : ∀ q ∈ rest, |t - s| ≤ |t - q.1| ∧ |t - s| ≤ |t - q.2| := by
    intro q hq
    have hq1 : s ≤ q.1 := segBoundaries_ge s e rest hwf q.1 (by
      simp only [segBoundaries, List.mem_flatMap]
      exact ⟨q, List.mem_cons_of_mem _ hq, by simp⟩)
    have hq2 : s ≤ q.2 := segBoundaries_ge s e rest hwf q.2 (by
      simp only [segBoundaries, List.mem_flatMap]
      exact ⟨q, List.mem_cons_of_mem _ hq, by simp⟩)
    rw [habs s (le_of_lt ht), habs q.1 (by linarith), habs q.2 (by linarith)]
    constructor <;> linarith
  unfold closestTime
  rw [hstep, closestSearch_const _ _ _ _ _ hball]

/-- **C2.** For every character alignment and every non-empty (well-formed)
keep-interval list, the character-level remap of `adjust_elevenlabs_timing`
keeps exactly the same characters in the same order (no character is
dropped); a character whose start and end both fail to map (entirely inside
removed silence) is assigned `(closest, closest + 0.01)` where `closest` is
the compressed image of the keep-interval boundary nearest to the
character's original start time; and in every output triple the end time is
at least the start time. -/
theorem adjust_elevenlabs_timing_coverage (segs : List (ℚ × ℚ))
    (chars : List (Char × ℚ × ℚ)) (hne : segs ≠ []) (hwf : segsWF segs) :
    (adjust_elevenlabs_timing segs chars = chars.map (remapChar segs) ∧
      (adjust_elevenlabs_timing segs chars).map Prod.fst = chars.map Prod.fst ∧
      (adjust_elevenlabs_timing segs chars).length = chars.length) ∧
    (∀ c st en, (c, st, en) ∈ chars →
      mapTimestamp segs st = none → mapTimestamp segs en = none →
      ∃ b closest, b ∈ segBoundaries segs ∧
        (∀ b' ∈ segBoundaries segs, |st - b| ≤ |st - b'|) ∧
        mapTimestamp segs b = some closest ∧
        remapChar segs (c, st, en) = (c, closest, closest + 1/100)) ∧
    (∀ x ∈ adjust_elevenlabs_timing segs chars, x.2.1 ≤ x.2.2) := by
  have hadj : adjust_elevenlabs_timing segs chars = chars.map (remapChar segs) := by
    unfold adjust_elevenlabs_timing
    rw [if_neg]
    simpa using hne
  refine ⟨⟨hadj, ?_, ?_⟩, ?_, ?_⟩
  · rw [hadj, List.map_map]
    exact List.map_congr_left fun x _ => rfl
  · rw [hadj, List.length_map]
  · intro c st en _ hst hen
    match segs, hne, hwf, hst, hen with
    | (s, e) :: rest, _, hwf, hst, hen =>
      have hts : st < s := (mapTimestamp_cons_eq_none_iff s e rest st).mp hst
      refine ⟨s, 0, by simp [segBoundaries], ?_, mapTimestamp_head_start s e rest hwf, ?_⟩
      · intro b' hb'
        have hsb : s ≤ b' := segBoundaries_ge s e rest hwf b' hb'
        have habs : ∀ b : ℚ, st ≤ b → |st - b| = b - st := fun b hb => by
          rw [abs_sub_comm]
          exact abs_of_nonneg (by linarith)
        rw [habs s (le_of_lt hts), habs b' (by linarith)]
        linarith
      · simp only [remapChar, remapPair, hst, hen,
          closestTime_of_before s e rest hwf st hts]
  · intro x hx
    rw [hadj] at hx
    rcases List.mem_map.mp hx with ⟨y, _, rfl⟩
    exact remapPair_le segs y.2.1 y.2.2

/-- Witness for C2: a concrete well-formed keep list `[(2,3)]` and a
character `('a', 0, 1/2)` entirely inside leading removed silence. -/
theorem adjust_elevenlabs_timing_coverage_witness :
    (adjust_elevenlabs_timing [((2 : ℚ), 3)] [('a', 0, 1/2)]).map Prod.fst =
      [('a', (0 : ℚ), 1/2)].map Prod.fst ∧
    ∀ x ∈ adjust_elevenlabs_timing [((2 : ℚ), 3)] [('a', 0, 1/2)], x.2.1 ≤ x.2.2 := by
  have hwf : segsWF [((2 : ℚ), 3)] := by
    refine ⟨?_, by simp⟩
    intro p hp
    simp only [List.mem_singleton] at hp
    rw [hp]
    norm_num
  have h := adjust_elevenlabs_timing_coverage [((2 : ℚ), 3)] [('a', 0, 1/2)] (by simp) hwf
  exact ⟨h.1.2.1, h.2.2⟩

/-! ## Silence removal (`AudioProcessor.remove_silence`, `audio_process.py`)

Audio is modelled at one-millisecond granularity (one list entry = one
millisecond of samples; pydub slices by milliseconds and
`duration_seconds = len_ms / 1000`).  pydub's `silence.detect_silence` is an
external collaborator: its output `silence_ranges` (millisecond pairs) is
taken as an input.  The +3 dB gain applied to the processed audio when
timing segments are requested is an uninterpreted per-sample function. -/

/-- Keep-segment construction: complement of the detected silence runs via
the `last_end` accumulator, plus the trailing segment after the last
silence run (all integer milliseconds). -/
def buildKeep (total : ℕ) : List (ℕ × ℕ) → ℕ → List (ℕ × ℕ)
  | [], lastEnd => if lastEnd < total then [(lastEnd, total)] else []
  | (ss, se) :: rest, lastEnd =>
    if lastEnd < ss then (lastEnd, ss) :: buildKeep total rest se
    else buildKeep total rest se

/-- Concatenation of the kept audio slices with a 50 ms digital-silence gap
between consecutive segments (no gap after the last). -/
def concatKeep (sound : List ℤ) : List (ℕ × ℕ) → List ℤ
  | [] => []
  | [(s, e)] => (sound.drop s).take (e - s)
  | (s, e) :: q :: rest =>
    (sound.drop s).take (e - s) ++ List.replicate 50 0 ++ concatKeep sound (q :: rest)

/-- `AudioProcessor.remove_silence`: returns the pair
`((duration_seconds?, keep_intervals_seconds?), exported_audio?)`.
Too-short audio (< 100 ms) and an empty keep list give `((none, none), none)`
(nothing exported); no detected silence exports the original audio
unchanged with a whole-file keep-interval. -/
def remove_silence (sound : List ℤ) (silence_ranges : List (ℕ × ℕ))
    (return_timing_segments : Bool) (gain3 : ℤ → ℤ) :
    (Option ℚ × Option (List (ℚ × ℚ))) × Option (List ℤ) :=
  let lenMs := sound.length
  if (lenMs : ℚ) / 1000 < 1/10 then ((none, none), none)
  else if silence_ranges = [] then
    ((some ((lenMs : ℚ) / 1000),
      if return_timing_segments then some [(0, (lenMs : ℚ) / 1000)] else none), some sound)
  else
    let keep := buildKeep lenMs silence_ranges 0
    if keep = [] then ((none, none), none)
    else
      let processed0 := concatKeep sound keep
      let processed := if return_timing_segments then processed0.map gain3 else processed0
      let timing := keep.map fun p => ((p.1 : ℚ) / 1000, (p.2 : ℚ) / 1000)
      ((some ((processed.length : ℚ) / 1000),
        if return_timing_segments then some timing else none), some processed)

theorem durationLt_iff (n : ℕ) : ((n : ℚ) / 1000 < 1/10) ↔ n < 100 := by
  rw [div_lt_div_iff (by norm_num) (by norm_num)]
  constructor
  · intro h
    have h10 : (n : ℚ) * 10 < 1000 := by linarith
    have h10n : n * 10 < 1000 := by exact_mod_cast h10
    omega
  · intro h
    have h10n : n * 10 < 1000 := by omega
    have h10 : (n : ℚ) * 10 < 1000 := by exact_mod_cast h10n
    linarith

/-- **C3.** `remove_silence` returns `(None, None)` (a non-fatal skip)
exactly when the audio is shorter than 100 ms or (abnormally) no keep
segment remains; and with no detected silence run it exports the original
audio unchanged and returns the full duration with one keep-interval
spanning the whole file. -/
theorem remove_silence_skip_and_identity (sound : List ℤ)
    (silence_ranges : List (ℕ × ℕ)) (gain3 : ℤ → ℤ) :
    ((remove_silence sound silence_ranges true gain3).1 = (none, none) ↔
      sound.length < 100 ∨
        (silence_ranges ≠ [] ∧ buildKeep sound.length silence_ranges 0 = [])) ∧
    (100 ≤ sound.length → silence_ranges = [] →
      remove_silence sound silence_ranges true gain3 =
        ((some ((sound.length : ℚ) / 1000),
          some [(0, (sound.length : ℚ) / 1000)]), some sound)) := by
  constructor
  · simp only [remove_silence, durationLt_iff]
    by_cases hlen : sound.length < 100
    · simp [hlen]
    · by_cases hranges : silence_ranges = []
      · simp [hlen, hranges]
      · by_cases hkeep : buildKeep sound.length silence_ranges 0 = []
        · simp [hlen, hranges, hkeep]
        · simp [hlen, hranges, hkeep]
  · intro hlen hranges
    have h1 : ((1 : ℚ)/10) ≤ (sound.length : ℚ) / 1000 := by
      rw [div_le_div_iff (by norm_num) (by norm_num)]
      have h2 : ((100 : ℚ)) ≤ (sound.length : ℚ) := by exact_mod_cast hlen
      linarith
    simp [remove_silence, hranges, not_lt.mpr h1]
    linarith

/-- Witness for C3: a 150 ms audio clip with no detected silence passes
through unchanged with a single whole-file keep-interval. -/
theorem remove_silence_skip_and_identity_witness :
    remove_silence (List.replicate 150 (0 : ℤ)) [] true (fun x => x) =
      ((some (((List.replicate 150 (0 : ℤ)).length : ℚ) / 1000),
        some [(0, ((List.replicate 150 (0 : ℤ)).length : ℚ) / 1000)]),
        some (List.replicate 150 (0 : ℤ))) :=
  (remove_silence_skip_and_identity (List.replicate 150 (0 : ℤ)) [] (fun x => x)).2
    (by simp) rfl

/-- Invariants of the keep-segment construction: when the detector output is
ascending and disjoint (`start < end` per run, `end ≤ next start`), every
built keep segment has `start < end` and starts at or after the running
`last_end`, and the segments are strictly separated. -/
theorem buildKeep_invariants (total : ℕ) (ranges : List (ℕ × ℕ)) (lastEnd : ℕ)
    (hr : ∀ r ∈ ranges, r.1 < r.2)
    (hchain : List.Chain' (fun a b => a.2 ≤ b.1) ranges)
    (hle : ∀ r ∈ ranges.head?, lastEnd ≤ r.1) :
    (∀ p ∈ buildKeep total ranges lastEnd, lastEnd ≤ p.1 ∧ p.1 < p.2) ∧
      List.Chain' (fun a b => a.2 < b.1) (buildKeep total ranges lastEnd) := by
  induction ranges generalizing lastEnd with
  | nil =>
    by_cases h : lastEnd < total
    · simp only [buildKeep, if_pos h]
      exact ⟨by intro p hp; simp only [List.mem_singleton] at hp; rw [hp]; exact ⟨le_refl _, h⟩,
        List.chain'_singleton _⟩
    · simp only [buildKeep, if_neg h]
      exact ⟨by simp, List.chain'_nil⟩
  | cons r rest ih =>
    obtain ⟨ss, se⟩ := r
    have hsse : ss < se := hr (ss, se) (by simp)
    have hrrest : ∀ q ∈ rest, q.1 < q.2 := fun q hq => hr q (by simp [hq])
    have hchain' : List.Chain' (fun a b => a.2 ≤ b.1) rest := (List.chain'_cons'.mp hchain).2
    have hlerest : ∀ q ∈ rest.head?, se ≤ q.1 := (List.chain'_cons'.mp hchain).1
    have ihse := ih se hrrest hchain' hlerest
    by_cases h : lastEnd < ss
    · simp only [buildKeep, if_pos h]
      constructor
      · intro p hp
        rcases List.mem_cons.mp hp with rfl | hp
        · exact ⟨le_refl _, h⟩
        · have := (ihse.1 p hp).1
          exact ⟨by omega, (ihse.1 p hp).2⟩
      · rw [List.chain'_cons']
        refine ⟨?_, ihse.2⟩
        intro y hy
        have hymem : y ∈ buildKeep total rest se := List.mem_of_mem_head? hy
        have := (ihse.1 y hymem).1
        simp only
        omega
    · simp only [buildKeep, if_neg h]
      have hlss : lastEnd ≤ ss := by
        have := hle (ss, se) rfl
        exact this
      refine ⟨?_, ihse.2⟩
      intro p hp
      have := ihse.1 p hp
      exact ⟨by omega, this.2⟩

/-- **C10 counterexample.** The keep-interval list returned by
`remove_silence` is in seconds, not integer milliseconds: a 1000 ms clip
with one detected silence run 200–500 ms yields the list
`[(0, 1/5), (1/2, 1)]`, whose second pair's start `1/2` is not an integer —
refuting "(start_ms, end_ms) pairs of integer milliseconds". -/
theorem remove_silence_keep_not_integer_ms :
    (remove_silence (List.replicate 1000 (0 : ℤ)) [(200, 500)] true (fun x => x)).1.2 =
      some [((0 : ℚ), 1/5), (1/2, 1)] ∧
    ¬ ∃ n : ℤ, ((1/2 : ℚ) = (n : ℚ)) := by
  constructor
  · have hlen : (List.replicate 1000 (0 : ℤ)).length = 1000 := by
      rw [List.length_replicate]
    have hkeep : buildKeep (List.replicate 1000 (0 : ℤ)).length [(200, 500)] 0 =
        [(0, 200), (500, 1000)] := by
      rw [hlen]
      norm_num [buildKeep]
    have hnotshort : ¬(((List.replicate 1000 (0 : ℤ)).length : ℚ) / 1000 < 1/10) := by
      rw [hlen]
      norm_num
    simp only [remove_silence, hkeep]
    rw [if_neg hnotshort, if_neg (by simp : ¬([((200 : ℕ), (500 : ℕ))] = [])),
      if_neg (by simp : ¬([((0 : ℕ), (200 : ℕ)), (500, 1000)] = []))]
    norm_num
  · rintro ⟨n, hn⟩
    have h2 : (1 : ℚ) = 2 * (n : ℚ) := by
      field_simp at hn
      linarith
    have h3 : (1 : ℤ) = 2 * n := by exact_mod_cast h2
    omega

/-- **C10 (amended).** Every keep-interval list returned by `remove_silence`
is the integer-millisecond keep list scaled to seconds — each pair is
`(s/1000, e/1000)` with `s`, `e` the integer-millisecond boundaries — and
(for detector output that is ascending and disjoint) it is ordered,
non-overlapping and strictly ascending with end > start in each pair. -/
theorem remove_silence_keep_intervals (sound : List ℤ)
    (silence_ranges : List (ℕ × ℕ)) (gain3 : ℤ → ℤ)
    (hr : ∀ r ∈ silence_ranges, r.1 < r.2)
    (hchain : List.Chain' (fun a b => a.2 ≤ b.1) silence_ranges) :
    (∀ p ∈ buildKeep sound.length silence_ranges 0, p.1 < p.2) ∧
    List.Chain' (fun a b => a.2 < b.1) (buildKeep sound.length silence_ranges 0) ∧
    (∀ p ∈ (buildKeep sound.length silence_ranges 0).map
        (fun p : ℕ × ℕ => ((p.1 : ℚ) / 1000, (p.2 : ℚ) / 1000)), p.1 < p.2) ∧
    List.Chain' (fun a b => a.2 < b.1)
      ((buildKeep sound.length silence_ranges 0).map
        (fun p : ℕ × ℕ => ((p.1 : ℚ) / 1000, (p.2 : ℚ) / 1000))) ∧
    ((remove_silence sound silence_ranges true gain3).1.2 = none ∨
      (remove_silence sound silence_ranges true gain3).1.2 =
        some ((buildKeep sound.length silence_ranges 0).map
          (fun p : ℕ × ℕ => ((p.1 : ℚ) / 1000, (p.2 : ℚ) / 1000)))) := by
  have hinv := buildKeep_invariants sound.length silence_ranges 0 hr hchain (by simp)
  have hdiv : ∀ a b : ℕ, a < b → (a : ℚ) / 1000 < (b : ℚ) / 1000 := by
    intro a b hab
    have hc : (a : ℚ) < (b : ℚ) := by exact_mod_cast hab
    exact div_lt_div_of_pos_right hc (by norm_num)
  refine ⟨fun p hp => (hinv.1 p hp).2, hinv.2, ?_, ?_, ?_⟩
  · intro p hp
    rcases List.mem_map.mp hp with ⟨q, hq, rfl⟩
    exact hdiv q.1 q.2 (hinv.1 q hq).2
  · rw [List.chain'_map]
    exact List.Chain'.imp (fun a b h => hdiv a.2 b.1 h) hinv.2
  · by_cases hlen : sound.length < 100
    · left
      have hshort : ((sound.length : ℚ) / 1000 < 1/10) := (durationLt_iff sound.length).mpr hlen
      simp only [remove_silence]
      rw [if_pos hshort]
    · have hnotshort : ¬((sound.length : ℚ) / 1000 < 1/10) := fun h => by
        have := (durationLt_iff sound.length).mp h
        omega
      by_cases hranges : silence_ranges = []
      · right
        subst hranges
        have h0 : 0 < sound.length := by omega
        have hbk : buildKeep sound.length [] 0 = [(0, sound.length)] := by
          simp [buildKeep, h0]
        simp only [remove_silence]
        rw [if_neg hnotshort, hbk]
        simp
      · by_cases hkeep : buildKeep sound.length silence_ranges 0 = []
        · left
          simp only [remove_silence]
          rw [if_neg hnotshort, if_neg hranges, if_pos hkeep]
        · right
          simp only [remove_silence]
          rw [if_neg hnotshort, if_neg hranges, if_neg hkeep]
          simp

/-- Witness for C10's amended theorem at the counterexample's concrete
input: the detector ranges `[(200,500)]` are ascending and disjoint, and the
returned list is the scaled integer keep list. -/
theorem remove_silence_keep_intervals_witness :
    (remove_silence (List.replicate 1000 (0 : ℤ)) [(200, 500)] true (fun x => x)).1.2 = none ∨
    (remove_silence (List.replicate 1000 (0 : ℤ)) [(200, 500)] true (fun x => x)).1.2 =
      some ((buildKeep (List.replicate 1000 (0 : ℤ)).length [(200, 500)] 0).map
        (fun p : ℕ × ℕ => ((p.1 : ℚ) / 1000, (p.2 : ℚ) / 1000))) :=
  (remove_silence_keep_intervals (List.replicate 1000 (0 : ℤ)) [(200, 500)] (fun x => x)
    (by intro r hr; simp only [List.mem_singleton] at hr; rw [hr]; norm_num)
    (by simp)).2.2.2.2

/-! ## Inter-word gap elimination (post-pass of `transcribe`,
`speech_to_text.py`)

`transcribe` flattens the document's words into `all_words_list` (segment
structure erased) and runs the pass over adjacent pairs of that global
list, mutating only the earlier word's end time. -/

/-- The gap-elimination pass: for each adjacent pair of the flattened word
list, if the earlier word's end is before the next word's start, extend the
earlier word's end to exactly meet it. -/
def fillGaps : List Word → List Word
  | [] => []
  | [w] => [w]
  | w1 :: w2 :: rest =>
    (if w1.time.stop < w2.time.start
      then { w1 with time := { w1.time with stop := w2.time.start } }
      else w1) :: fillGaps (w2 :: rest)

theorem fillGaps_spec : ∀ ws : List Word,
    List.Chain' (fun a b => a.time.stop ≤ b.time.start) ws →
    (List.Chain' (fun a b => a.time.stop = b.time.start) (fillGaps ws) ∧
     (fillGaps ws).map (fun w => w.time.start) = ws.map (fun w => w.time.start) ∧
     ((fillGaps ws).getLast?).map (fun w => w.time.stop) =
       (ws.getLast?).map (fun w => w.time.stop))
  | [], _ => by simp [fillGaps]
  | [w], _ => by simp [fillGaps]
  | w1 :: w2 :: rest, h => by
    have h12 : w1.time.stop ≤ w2.time.start := (List.chain'_cons.mp h).1
    have h' := (List.chain'_cons.mp h).2
    have ih := fillGaps_spec (w2 :: rest) h'
    set w1' := if w1.time.stop < w2.time.start
      then { w1 with time := { w1.time with stop := w2.time.start } } else w1 with hw1'
    have hfg : fillGaps (w1 :: w2 :: rest) = w1' :: fillGaps (w2 :: rest) := rfl
    have hstop : w1'.time.stop = w2.time.start := by
      rw [hw1']
      by_cases hlt : w1.time.stop < w2.time.start
      · simp [hlt]
      · simp only [hlt, if_false]
        exact le_antisymm h12 (not_lt.mp hlt)
    have hstart : w1'.time.start = w1.time.start := by
      rw [hw1']
      by_cases hlt : w1.time.stop < w2.time.start <;> simp [hlt]
    have hhead : ∃ w2' ws', fillGaps (w2 :: rest) = w2' :: ws' ∧
        w2'.time.start = w2.time.start := by
      cases rest with
      | nil => exact ⟨w2, [], rfl, rfl⟩
      | cons w3 rest' =>
        refine ⟨_, _, rfl, ?_⟩
        by_cases hlt : w2.time.stop < w3.time.start <;> simp [hlt]
    obtain ⟨w2', ws', hws', hw2start⟩ := hhead
    refine ⟨?_, ?_, ?_⟩
    · rw [hfg, hws']
      rw [hws'] at ih
      exact List.chain'_cons.mpr ⟨by rw [hstop, ← hw2start], ih.1⟩
    · rw [hfg]
      simp only [List.map_cons]
      rw [hstart, ih.2.1]
      simp
    · rw [hfg, hws', List.getLast?_cons_cons, List.getLast?_cons_cons, ← hws']
      exact ih.2.2

/-- **C5.** For every local-transcription document (a list of segments, each
a list of words) whose flattened global word list has each word's end not
exceeding the next word's start, the gap-elimination post-pass makes every
adjacent pair (including pairs straddling a segment boundary) satisfy
`end = next start`, while all start times and the final word's end time are
unchanged. -/
theorem transcribe_gap_elimination (segments : List (List Word))
    (h : List.Chain' (fun a b => a.time.stop ≤ b.time.start) segments.flatten) :
    List.Chain' (fun a b => a.time.stop = b.time.start) (fillGaps segments.flatten) ∧
    (fillGaps segments.flatten).map (fun w => w.time.start) =
      segments.flatten.map (fun w => w.time.start) ∧
    ((fillGaps segments.flatten).getLast?).map (fun w => w.time.stop) =
      (segments.flatten.getLast?).map (fun w => w.time.stop) :=
  fillGaps_spec segments.flatten h

/-- Witness for C5: two one-word segments with a gap straddling the segment
boundary (word ends 1 s, next starts 2 s). -/
theorem transcribe_gap_elimination_witness :
    List.Chain' (fun a b => a.time.stop = b.time.start)
      (fillGaps ([[⟨"a", ⟨0, 1⟩, []⟩], [⟨"b", ⟨2, 3⟩, []⟩]] : List (List Word)).flatten) ∧
    (fillGaps ([[⟨"a", ⟨0, 1⟩, []⟩], [⟨"b", ⟨2, 3⟩, []⟩]] : List (List Word)).flatten).map
        (fun w => w.time.start) =
      ([[⟨"a", ⟨0, 1⟩, []⟩], [⟨"b", ⟨2, 3⟩, []⟩]] : List (List Word)).flatten.map
        (fun w => w.time.start) ∧
    ((fillGaps ([[⟨"a", ⟨0, 1⟩, []⟩], [⟨"b", ⟨2, 3⟩, []⟩]] : List (List Word)).flatten).getLast?).map
        (fun w => w.time.stop) =
      (([[⟨"a", ⟨0, 1⟩, []⟩], [⟨"b", ⟨2, 3⟩, []⟩]] : List (List Word)).flatten.getLast?).map
        (fun w => w.time.stop) :=
  transcribe_gap_elimination [[⟨"a", ⟨0, 1⟩, []⟩], [⟨"b", ⟨2, 3⟩, []⟩]]
    (by norm_num [List.chain'_cons])

/-! ## Text normalization (`normalize_for_matching`, `speech_to_text.py`)

`re.sub(r'[^\w\s]', '', text.lower())` followed by `' '.join(text.split())`.
`\w` is modelled as ASCII alphanumeric or underscore and lowercasing as
ASCII (Lean's `Char.isAlphanum` / `Char.toLower`); the repository's inputs
at the claims under verification are ASCII. -/

/-- A regex `\w` character. -/
def isWordChar (c : Char) : Bool := c.isAlphanum || c = '_'

/-- `re.sub(r'[^\w\s]', '', text.lower())` on a character list. -/
def cleanChars (l : List Char) : List Char :=
  (l.map Char.toLower).filter fun c => isWordChar c || c.isWhitespace

/-- Helper of `splitWs`: accumulate the current token (reversed). -/
def splitWsGo (acc : List Char) : List Char → List (List Char)
  | [] => if acc.isEmpty then [] else [acc.reverse]
  | c :: rest =>
    if c.isWhitespace then
      if acc.isEmpty then splitWsGo [] rest else acc.reverse :: splitWsGo [] rest
    else splitWsGo (c :: acc) rest

/-- Python `text.split()`: split on whitespace runs, dropping empty tokens. -/
def splitWs (l : List Char) : List (List Char) := splitWsGo [] l

/-- The normalized word tokens of a string. -/
def normalizeTokens (s : String) : List (List Char) := splitWs (cleanChars s.toList)

/-- `normalize_for_matching(text)`: `' '.join(tokens)`, as a char list. -/
def normalizeChars (s : String) : List Char :=
  List.intercalate [' '] (normalizeTokens s)

/-! ## Long-word size tags (`apply_long_word_size_tags`, `speech_to_text.py`) -/

/-- `apply_long_word_size_tags`: tag words by raw `len(word.text)` —
`>= 26` smallest, `elif >= 22` smaller, `elif >= 18` small (the document is
modelled by its flattened word list; the function visits every word). -/
def apply_long_word_size_tags (ws : List Word) : List Word :=
  ws.map fun w =>
    if 26 ≤ w.text.length then addTag w "smallest"
    else if 22 ≤ w.text.length then addTag w "smaller"
    else if 18 ≤ w.text.length then addTag w "small"
    else w

/-- **C9 counterexample.** The size tagger thresholds use the raw text
length, not the normalized text length: a word of raw length 18 whose
normalized text has only 17 characters ("abcdefghijklmnopq,") is still
tagged "small", contradicting the claim that words of normalized length
below 18 receive no size tag. -/
theorem apply_long_word_size_tags_counterexample :
    (normalizeChars "abcdefghijklmnopq,").length < 18 ∧
    apply_long_word_size_tags [⟨"abcdefghijklmnopq,", ⟨0, 1⟩, []⟩] =
      [⟨"abcdefghijklmnopq,", ⟨0, 1⟩, ["small"]⟩] := by
  constructor
  · decide
  · decide

/-- **C9 (amended).** For every word, the size tagger adds exactly one of
"smallest"/"smaller"/"small" when the word's *raw* text length is ≥ 26,
≥ 22 or ≥ 18 respectively (longest threshold wins, mutually exclusive) and
none for shorter words; text and time are untouched.  A word of length 30
receives only "smallest". -/
theorem apply_long_word_size_tags_spec :
    (∀ (ws : List Word) (i : ℕ), i < ws.length →
      "smallest" ∉ (ws.getD i default).semantic_tags →
      "smaller" ∉ (ws.getD i default).semantic_tags →
      "small" ∉ (ws.getD i default).semantic_tags →
      ((apply_long_word_size_tags ws).getD i default).text = (ws.getD i default).text ∧
      ((apply_long_word_size_tags ws).getD i default).time = (ws.getD i default).time ∧
      ((apply_long_word_size_tags ws).getD i default).semantic_tags =
        (ws.getD i default).semantic_tags ++
          (if 26 ≤ (ws.getD i default).text.length then ["smallest"]
           else if 22 ≤ (ws.getD i default).text.length then ["smaller"]
           else if 18 ≤ (ws.getD i default).text.length then ["small"]
           else [])) ∧
    apply_long_word_size_tags [⟨"abcdefghijklmnopqrstuvwxyzabcd", ⟨0, 1⟩, []⟩] =
      [⟨"abcdefghijklmnopqrstuvwxyzabcd", ⟨0, 1⟩, ["smallest"]⟩] := by
  constructor
  · intro ws i hi h1 h2 h3
    have hmap : (apply_long_word_size_tags ws).getD i default =
        (fun w =>
          if 26 ≤ w.text.length then addTag w "smallest"
          else if 22 ≤ w.text.length then addTag w "smaller"
          else if 18 ≤ w.text.length then addTag w "small"
          else w) (ws.getD i default) := by
      unfold apply_long_word_size_tags
      rw [List.getD_eq_getElem _ _ (by simpa using hi), List.getD_eq_getElem _ _ hi,
        List.getElem_map]
    rw [hmap]
    set w := ws.getD i default with hw
    by_cases c26 : 26 ≤ w.text.length
    · simp only [c26, if_true]
      simp [addTag, h1]
    · by_cases c22 : 22 ≤ w.text.length
      · simp only [c26, if_false, c22, if_true]
        simp [addTag, h2]
      · by_cases c18 : 18 ≤ w.text.length
        · simp only [c26, if_false, c22, c18, if_true]
          simp [addTag, h3]
        · simp only [c26, if_false, c22, c18]
          simp
  · decide

/-- Witness for C9's amended theorem: the 30-character word, through the
universally quantified part, with all hypotheses discharged concretely. -/
theorem apply_long_word_size_tags_spec_witness :
    ((apply_long_word_size_tags [⟨"abcdefghijklmnopqrstuvwxyzabcd", ⟨0, 1⟩, []⟩]).getD 0
        default).text =
      (([⟨"abcdefghijklmnopqrstuvwxyzabcd", ⟨0, 1⟩, []⟩] : List Word).getD 0 default).text ∧
    ((apply_long_word_size_tags [⟨"abcdefghijklmnopqrstuvwxyzabcd", ⟨0, 1⟩, []⟩]).getD 0
        default).time =
      (([⟨"abcdefghijklmnopqrstuvwxyzabcd", ⟨0, 1⟩, []⟩] : List Word).getD 0 default).time ∧
    ((apply_long_word_size_tags [⟨"abcdefghijklmnopqrstuvwxyzabcd", ⟨0, 1⟩, []⟩]).getD 0
        default).semantic_tags =
      (([⟨"abcdefghijklmnopqrstuvwxyzabcd", ⟨0, 1⟩, []⟩] : List Word).getD 0
          default).semantic_tags ++
        (if 26 ≤ (([⟨"abcdefghijklmnopqrstuvwxyzabcd", ⟨0, 1⟩, []⟩] : List Word).getD 0
            default).text.length then ["smallest"]
         else if 22 ≤ (([⟨"abcdefghijklmnopqrstuvwxyzabcd", ⟨0, 1⟩, []⟩] : List Word).getD 0
            default).text.length then ["smaller"]
         else if 18 ≤ (([⟨"abcdefghijklmnopqrstuvwxyzabcd", ⟨0, 1⟩, []⟩] : List Word).getD 0
            default).text.length then ["small"]
         else []) :=
  apply_long_word_size_tags_spec.1 [⟨"abcdefghijklmnopqrstuvwxyzabcd", ⟨0, 1⟩, []⟩] 0
    (by norm_num) (by simp) (by simp) (by simp)

/-! ## Title-boundary matcher (`extract_title_duration_from_document`,
`speech_to_text.py`)

The document is modelled by its flattened word list (the function itself
flattens `document.segments` → `lines` → `words` into `all_words`). -/

/-- `list(normalized_title.replace(' ', ''))`: the title's bare character
stream. -/
def titleCharsOf (title : String) : List Char :=
  (normalizeChars title).filter (· ≠ ' ')

/-- The `(char, owning_word)` stream built from the normalized text of each
word (`transcribed_chars` paired with `word_char_mapping`). -/
def docEntries (words : List Word) : List (Char × Word) :=
  words.flatMap fun w => (normalizeChars w.text).map fun c => (c, w)

/-- `transcribed_chars`. -/
def transcribedCharsOf (words : List Word) : List Char :=
  (docEntries words).map Prod.fst

/-- The greedy two-pointer fuzzy scan: compare the title characters against
a transcript prefix, tolerating single-character insertions and deletions
(lookahead one position, half credit for a skip-and-match).  Returns
`(matched_chars, title_chars_consumed)`. -/
def greedyScan : List Char → List Char → ℚ × ℕ
  | [], _ => (0, 0)
  | _ :: _, [] => (0, 0)
  | t :: trest, s :: srest =>
    if t = s then
      let r := greedyScan trest srest
      (r.1 + 1, r.2 + 1)
    else if srest.head? = some t then
      let r := greedyScan trest srest.tail
      (r.1 + 1/2, r.2 + 1)
    else if trest.head? = some s then
      let r := greedyScan trest.tail srest
      (r.1 + 1/2, r.2 + 2)
    else
      let r := greedyScan trest srest
      (r.1, r.2 + 1)
termination_by tc sc => tc.length + sc.length
decreasing_by
  all_goals simp
  all_goals omega

/-- Candidate evaluation at one end position: `(score, coverage_ratio)`
with `score = 0.7 * match_ratio + 0.3 * coverage_ratio`. -/
def titleScoreAt (titleChars transcribedChars : List Char) (endPos : ℕ) : ℚ × ℚ :=
  let r := greedyScan titleChars (transcribedChars.take endPos)
  ((r.1 / titleChars.length) * (7/10) + ((r.2 : ℚ) / titleChars.length) * (3/10),
    (r.2 : ℚ) / titleChars.length)

/-- The candidate range `range(len(title_chars) // 2, max_search_length + 1)`
with `max_search_length = min(len(transcribed_chars), 3 * len(title_chars))`. -/
def titleSearchRange (titleLen transLen : ℕ) : List ℕ :=
  (List.range (min transLen (3 * titleLen) + 1 - titleLen / 2)).map (titleLen / 2 + ·)

/-- The best-candidate fold over the search range: track
`(best_match_end, best_match_score)` from `(0, 0)`, updating only when the
title coverage is at least 80% and the score strictly improves. -/
def titleBestMatch (titleChars transcribedChars : List Char) : ℕ × ℚ :=
  (titleSearchRange titleChars.length transcribedChars.length).foldl
    (fun acc endPos =>
      let sc := titleScoreAt titleChars transcribedChars endPos
      if 8/10 ≤ sc.2 ∧ acc.2 < sc.1 then (endPos, sc.1) else acc)
    (0, 0)

/-- `extract_title_duration_from_document(document, title)`. -/
def extract_title_duration_from_document (words : List Word) (title : String) : ℚ :=
  if words = [] then 0
  else if titleCharsOf title = [] then 0
  else if transcribedCharsOf words = [] then 0
  else if 1/2 < (titleBestMatch (titleCharsOf title) (transcribedCharsOf words)).2 ∧
      0 < (titleBestMatch (titleCharsOf title) (transcribedCharsOf words)).1 then
    ((docEntries words).getD
      (min ((titleBestMatch (titleCharsOf title) (transcribedCharsOf words)).1 - 1)
        ((docEntries words).length - 1)) default).2.time.stop
  else if 0 < (normalizeTokens title).length ∧ 0 < words.length then
    (words.getD (min (normalizeTokens title).length (words.length - 1)) default).time.stop
  else 0

/-- "No fuzzy match reaches score > 0.5 with title coverage ≥ 0.8": no
candidate end position in the searched range attains both. -/
def noReliableMatch (titleChars transcribedChars : List Char) : Prop :=
  ∀ endPos ∈ titleSearchRange titleChars.length transcribedChars.length,
    ¬(8/10 ≤ (titleScoreAt titleChars transcribedChars endPos).2 ∧
      1/2 < (titleScoreAt titleChars transcribedChars endPos).1)

instance (tc sc : List Char) : Decidable (noReliableMatch tc sc) :=
  inferInstanceAs (Decidable (∀ endPos ∈ titleSearchRange tc.length sc.length,
    ¬(8/10 ≤ (titleScoreAt tc sc endPos).2 ∧ 1/2 < (titleScoreAt tc sc endPos).1)))

/-- End time of the document's last word (0 for an empty document). -/
def lastStop (ws : List Word) : ℚ := ((ws.getLast?).map fun w => w.time.stop).getD 0

theorem titleBestMatch_le_half (tc sc : List Char) (h : noReliableMatch tc sc) :
    (titleBestMatch tc sc).2 ≤ 1/2 := by
  unfold titleBestMatch
  have H : ∀ (l : List ℕ) (acc : ℕ × ℚ),
      (∀ p ∈ l, ¬(8/10 ≤ (titleScoreAt tc sc p).2 ∧ 1/2 < (titleScoreAt tc sc p).1)) →
      acc.2 ≤ 1/2 →
      (l.foldl (fun acc endPos =>
        let sc' := titleScoreAt tc sc endPos
        if 8/10 ≤ sc'.2 ∧ acc.2 < sc'.1 then (endPos, sc'.1) else acc) acc).2 ≤ 1/2 := by
    intro l
    induction l with
    | nil => intro acc _ hacc; exact hacc
    | cons p rest ih =>
      intro acc hl hacc
      simp only [List.foldl_cons]
      apply ih _ fun q hq => hl q (by simp [hq])
      by_cases hc : 8/10 ≤ (titleScoreAt tc sc p).2 ∧ acc.2 < (titleScoreAt tc sc p).1
      · have hple : (titleScoreAt tc sc p).1 ≤ 1/2 := by
          by_contra hgt
          exact hl p (by simp) ⟨hc.1, lt_of_not_le hgt⟩
        simp only [hc, if_true]
        exact hple
      · simp only [hc, if_false]
        exact hacc
  exact H _ _ h (by norm_num)

theorem docEntries_snd_mem {words : List Word} {x : Char × Word}
    (hx : x ∈ docEntries words) : x.2 ∈ words := by
  rcases List.mem_flatMap.mp hx with ⟨w, hw, hxw⟩
  rcases List.mem_map.mp hxw with ⟨c, _, rfl⟩
  exact hw

theorem getD_mem {α : Type} [Inhabited α] (l : List α) (i : ℕ) (h : i < l.length) :
    l.getD i default ∈ l := by
  rw [List.getD_eq_getElem _ _ h]
  exact List.getElem_mem h

theorem stop_le_lastStop : ∀ ws : List Word,
    List.Chain' (fun a b => a.time.stop ≤ b.time.stop) ws →
    ∀ w ∈ ws, w.time.stop ≤ lastStop ws
  | [], _, w, hw => absurd hw (by simp)
  | [v], _, w, hw => by
    simp only [List.mem_singleton] at hw
    rw [hw]
    simp [lastStop]
  | v1 :: v2 :: rest, h, w, hw => by
    have h12 : v1.time.stop ≤ v2.time.stop := (List.chain'_cons.mp h).1
    have h' := (List.chain'_cons.mp h).2
    have hlast : lastStop (v1 :: v2 :: rest) = lastStop (v2 :: rest) := by
      simp [lastStop, List.getLast?_cons_cons]
    rw [hlast]
    rcases List.mem_cons.mp hw with rfl | hw'
    · exact le_trans h12 (stop_le_lastStop (v2 :: rest) h' v2 (by simp))
    · exact stop_le_lastStop (v2 :: rest) h' w hw'

/-- The title-duration extraction always returns 0 or some word's end time. -/
theorem extract_result_cases (words : List Word) (title : String) :
    extract_title_duration_from_document words title = 0 ∨
      ∃ w ∈ words, extract_title_duration_from_document words title = w.time.stop := by
  unfold extract_title_duration_from_document
  by_cases h1 : words = []
  · simp [h1]
  by_cases h2 : titleCharsOf title = []
  · simp [h1, h2]
  by_cases h3 : transcribedCharsOf words = []
  · simp [h1, h2, h3]
  rw [if_neg h1, if_neg h2, if_neg h3]
  by_cases h4 : 1/2 < (titleBestMatch (titleCharsOf title) (transcribedCharsOf words)).2 ∧
      0 < (titleBestMatch (titleCharsOf title) (transcribedCharsOf words)).1
  · rw [if_pos h4]
    right
    have hde : docEntries words ≠ [] := by
      intro he
      exact h3 (by simp [transcribedCharsOf, he])
    have hpos : 0 < (docEntries words).length := List.length_pos.mpr hde
    have hidx : min ((titleBestMatch (titleCharsOf title) (transcribedCharsOf words)).1 - 1)
        ((docEntries words).length - 1) < (docEntries words).length := by
      have : min ((titleBestMatch (titleCharsOf title) (transcribedCharsOf words)).1 - 1)
          ((docEntries words).length - 1) ≤ (docEntries words).length - 1 := min_le_right _ _
      omega
    exact ⟨_, docEntries_snd_mem (getD_mem _ _ hidx), rfl⟩
  · rw [if_neg h4]
    by_cases h5 : 0 < (normalizeTokens title).length ∧ 0 < words.length
    · rw [if_pos h5]
      right
      have hidx : min (normalizeTokens title).length (words.length - 1) < words.length := by
        have := min_le_right (normalizeTokens title).length (words.length - 1)
        omega
      exact ⟨_, getD_mem _ _ hidx, rfl⟩
    · rw [if_neg h5]
      exact Or.inl rfl

/-- **C7 counterexample.** For the non-empty document `[word "!!!" (0,1)]`
(whose normalized transcript is empty) and title "hi", no fuzzy candidate
exists, yet the function returns 0.0 — not the claimed fallback
`end time of word at index min(len(title.split()), total_words - 1)`,
which is 1. -/
theorem extract_title_duration_counterexample :
    noReliableMatch (titleCharsOf "hi") (transcribedCharsOf [⟨"!!!", ⟨0, 1⟩, []⟩]) ∧
    extract_title_duration_from_document [⟨"!!!", ⟨0, 1⟩, []⟩] "hi" = 0 ∧
    (([⟨"!!!", ⟨0, 1⟩, []⟩] : List Word).getD
      (min (normalizeTokens "hi").length (([⟨"!!!", ⟨0, 1⟩, []⟩] : List Word).length - 1))
      default).time.stop = 1 ∧
    (0 : ℚ) ≠ 1 := by
  refine ⟨by decide, rfl, rfl, by norm_num⟩

/-- **C7 (amended).** For every non-empty document with non-negative,
non-decreasingly ordered word times, the title matcher returns a value with
`0 ≤ result ≤ total end time`; and when no fuzzy candidate reaches
score > 0.5 with coverage ≥ 0.8 — provided the normalized title and the
normalized transcript are non-empty — it returns the end time of the word
at index `min(len(title.split()), total_words - 1)`. -/
theorem extract_title_duration_spec (words : List Word) (title : String)
    (hne : words ≠ [])
    (hpos : ∀ w ∈ words, 0 ≤ w.time.start ∧ 0 ≤ w.time.stop)
    (hchainStart : List.Chain' (fun a b => a.time.start ≤ b.time.start) words)
    (hchainStop : List.Chain' (fun a b => a.time.stop ≤ b.time.stop) words) :
    (0 ≤ extract_title_duration_from_document words title ∧
      extract_title_duration_from_document words title ≤ lastStop words) ∧
    (titleCharsOf title ≠ [] → transcribedCharsOf words ≠ [] →
      noReliableMatch (titleCharsOf title) (transcribedCharsOf words) →
      extract_title_duration_from_document words title =
        (words.getD (min (normalizeTokens title).length (words.length - 1))
          default).time.stop) := by
  constructor
  · have hlast0 : 0 ≤ lastStop words := by
      have hlq : words.getLast? = some (words.getLast hne) := List.getLast?_eq_getLast words hne
      have : lastStop words = (words.getLast hne).time.stop := by
        simp [lastStop, hlq]
      rw [this]
      exact (hpos _ (List.getLast_mem hne)).2
    rcases extract_result_cases words title with h | ⟨w, hw, h⟩
    · rw [h]
      exact ⟨le_refl 0, hlast0⟩
    · rw [h]
      exact ⟨(hpos w hw).2, stop_le_lastStop words hchainStop w hw⟩
  · intro htc hent hnrm
    have hb := titleBestMatch_le_half _ _ hnrm
    have h4 : ¬(1/2 < (titleBestMatch (titleCharsOf title) (transcribedCharsOf words)).2 ∧
        0 < (titleBestMatch (titleCharsOf title) (transcribedCharsOf words)).1) :=
      fun hc => absurd hc.1 (not_lt.mpr hb)
    have h5 : 0 < (normalizeTokens title).length := by
      rcases Nat.eq_zero_or_pos (normalizeTokens title).length with h0 | h0
      · exfalso
        apply htc
        have hnil : normalizeTokens title = [] := List.length_eq_zero.mp h0
        rw [titleCharsOf, normalizeChars, hnil]
        rfl
      · exact h0
    unfold extract_title_duration_from_document
    rw [if_neg hne, if_neg htc, if_neg hent, if_neg h4,
      if_pos ⟨h5, List.length_pos.mpr hne⟩]

/-- Witness for C7's amended theorem: a two-word document and a long title
whose search range is empty (no candidate), forcing the fallback, which
evaluates to the second word's end time. -/
theorem extract_title_duration_spec_witness :
    extract_title_duration_from_document
        [⟨"a", ⟨0, 1⟩, []⟩, ⟨"b", ⟨1, 2⟩, []⟩] "abcdefghij" =
      (([⟨"a", ⟨0, 1⟩, []⟩, ⟨"b", ⟨1, 2⟩, []⟩] : List Word).getD
        (min (normalizeTokens "abcdefghij").length
          (([⟨"a", ⟨0, 1⟩, []⟩, ⟨"b", ⟨1, 2⟩, []⟩] : List Word).length - 1))
        default).time.stop ∧
    0 ≤ extract_title_duration_from_document
        [⟨"a", ⟨0, 1⟩, []⟩, ⟨"b", ⟨1, 2⟩, []⟩] "abcdefghij" := by
  have h := extract_title_duration_spec [⟨"a", ⟨0, 1⟩, []⟩, ⟨"b", ⟨1, 2⟩, []⟩] "abcdefghij"
    (by simp)
    (by intro w hw; fin_cases hw <;> norm_num)
    (by norm_num [List.chain'_cons])
    (by norm_num [List.chain'_cons])
  exact ⟨h.2 (by decide) (by decide) (by decide), h.1.1⟩

/-! ## Quote tagger (`apply_quotes_from_original_text`, `speech_to_text.py`)

The document is modelled by its flattened word list (`all_words`); the
Python code reads and mutates exactly that flattened list (word objects are
shared with the nested structure). -/

/-- Normalize curly/low-9 double-quote variants to the straight quote. -/
def normalizeQuoteChars (l : List Char) : List Char :=
  l.map fun c => if c = '“' ∨ c = '”' ∨ c = '„' then '"' else c

/-- Scanner for `re.finditer(r'"([^"]*)"', text)`: outside a quote
(state `none`) look for an opening quote; inside a quote (state `some acc`)
accumulate until the closing quote — a quote left open at the end of the
text produces no match. -/
def quotedSectionsGo : List Char → Option (List Char) → List (List Char)
  | [], _ => []
  | c :: rest, none =>
    if c = '"' then quotedSectionsGo rest (some []) else quotedSectionsGo rest none
  | c :: rest, some acc =>
    if c = '"' then acc :: quotedSectionsGo rest none
    else quotedSectionsGo rest (some (acc ++ [c]))

/-- All regex matches of `"([^"]*)"` in scan order. -/
def quotedSections (l : List Char) : List (List Char) := quotedSectionsGo l none

/-- Python `str.strip()`. -/
def stripChars (l : List Char) : List Char :=
  ((l.dropWhile Char.isWhitespace).reverse.dropWhile Char.isWhitespace).reverse

/-- The quoted sections of the original text: regex matches, stripped, empty
ones discarded. -/
def extractQuotedSections (original_text : String) : List (List Char) :=
  ((quotedSections (normalizeQuoteChars original_text.toList)).map stripChars).filter
    fun q => ¬q.isEmpty

/-- Python `a in b` for strings: `needle` occurs contiguously in `hay`. -/
def listHasRun (needle : List Char) : List Char → Bool
  | [] => needle.isEmpty
  | c :: t => needle.isPrefixOf (c :: t) || listHasRun needle t

/-- Per-token fuzzy match: substring containment either way, or equal first
three characters when both tokens have at least three. -/
def tokenMatches (quote_word transcribed_word : List Char) : Bool :=
  listHasRun quote_word transcribed_word || listHasRun transcribed_word quote_word ||
    (3 ≤ quote_word.length && 3 ≤ transcribed_word.length &&
      quote_word.take 3 == transcribed_word.take 3)

/-- First index at which the token sequence `needle` occurs in the token
sequence scanned (exact token-sequence match). -/
def findTokenRun (needle : List (List Char)) : List (List Char) → Option ℕ
  | [] => if needle = [] then some 0 else none
  | w :: rest =>
    if (w :: rest).take needle.length = needle then some 0
    else (findTokenRun needle rest).map (· + 1)

/-- Candidate start positions: expected position first, then alternating
+offset / -offset out to `len(all_words) // 2`. -/
def searchPositions (expected n : ℕ) : List ℕ :=
  (List.range (n / 2 + 1)).flatMap fun o =>
    (if expected + o < n then [expected + o] else []) ++
      (if 0 < o ∧ o ≤ expected then [expected - o] else [])

/-- The per-candidate run scan: walk the quote tokens from `startPos`,
counting matches and recording matched positions, aborting after more than
`maxMis` consecutive mismatches or at the end of the word list. -/
def runScanGo (twn : List (List Char)) (n maxMis startPos : ℕ) :
    ℕ → ℕ → ℕ → List ℕ → List (List Char) → ℕ × List ℕ
  | _, _, matched, posAcc, [] => (matched, posAcc.reverse)
  | j, consec, matched, posAcc, qw :: qrest =>
    if n ≤ startPos + j then (matched, posAcc.reverse)
    else if tokenMatches qw (twn.getD (startPos + j) []) then
      runScanGo twn n maxMis startPos (j + 1) 0 (matched + 1) ((startPos + j) :: posAcc) qrest
    else if maxMis < consec + 1 then (matched, posAcc.reverse)
    else runScanGo twn n maxMis startPos (j + 1) (consec + 1) matched posAcc qrest

/-- The best-match fold over the candidate start positions: keep
`(best_match_score, best_match)` starting from `(0, none)`; a candidate
qualifies when its matched count reaches the length-dependent minimum ratio
and its distance-penalized score strictly beats the best so far. -/
def quoteBestMatch (twn : List (List Char)) (n : ℕ) (quote_words : List (List Char))
    (expected : ℕ) : ℚ × Option (List ℕ) :=
  let maxMis := max 1 (quote_words.length / 10)
  (searchPositions expected n).foldl
    (fun best startPos =>
      let r := runScanGo twn n maxMis startPos 0 0 0 [] quote_words
      let minRatio : ℚ := if quote_words.length < 5 then 7/10 else 1/2
      if (quote_words.length : ℚ) * minRatio ≤ (r.1 : ℚ) then
        let distPenalty : ℚ :=
          ((max startPos expected - min startPos expected : ℕ) : ℚ) / ((max 1 n : ℕ) : ℚ)
        let score := (r.1 : ℚ) / (quote_words.length : ℚ) - distPenalty * (1/5)
        if best.1 < score then (score, some r.2) else best
      else best)
    (0, none)

/-- Prepend a straight quote to the word's text unless one is present
(`text.startswith('"')`, stated on the character list: the first character
is a straight quote). -/
def prependQuote (w : Word) : Word :=
  if w.text.toList.take 1 = ['"'] then w else { w with text := "\"" ++ w.text }

/-- Append a straight quote to the word's text unless one is present
(`text.endswith('"')`: the last character is a straight quote). -/
def appendQuote (w : Word) : Word :=
  if w.text.toList.getLast? = some '"' then w else { w with text := w.text ++ "\"" }

/-- In-place update of the word object at one position of `all_words`. -/
def modifyAt (f : Word → Word) : ℕ → List Word → List Word
  | _, [] => []
  | 0, w :: ws => f w :: ws
  | n + 1, w :: ws => w :: modifyAt f n ws

/-- Apply an accepted match: repair the opening quote on the first matched
word and the closing quote on the last, then tag every matched position
"quoted".  An empty match list is falsy in Python and applies nothing. -/
def applyBestMatch (ws : List Word) : Option (List ℕ) → List Word
  | none => ws
  | some [] => ws
  | some (p :: rest) =>
    let ws1 := modifyAt prependQuote p ws
    let ws2 := modifyAt appendQuote ((p :: rest).getLast (List.cons_ne_nil p rest)) ws1
    (p :: rest).foldl (fun acc pos => modifyAt (fun w => addTag w "quoted") pos acc) ws2

/-- One quoted section: tokenize it, locate it in the original text's token
stream, derive the expected transcript position (`int(pos / len * n)`,
which over exact arithmetic is `pos * n / len` in integer division), and
apply the best fuzzy run match, if any. -/
def applyQuoteSection (original_words twn : List (List Char)) (n : ℕ)
    (ws : List Word) (sec : List Char) : List Word :=
  if splitWs (cleanChars sec) = [] then ws
  else
    match findTokenRun (splitWs (cleanChars sec)) original_words with
    | none => ws
    | some pos =>
      applyBestMatch ws
        (quoteBestMatch twn n (splitWs (cleanChars sec))
          (pos * n / max 1 original_words.length)).2

/-- `apply_quotes_from_original_text(document, original_text)`: the
normalized token stream of the original text, the per-word normalized
transcript tokens and the word count are computed once; the quoted sections
are then processed in order, each mutating the word list. -/
def apply_quotes_from_original_text (ws : List Word) (original_text : String) : List Word :=
  if extractQuotedSections original_text = [] then ws
  else if ws = [] then ws
  else
    (extractQuotedSections original_text).foldl
      (fun acc sec =>
        applyQuoteSection (normalizeTokens original_text)
          (ws.map fun w => normalizeChars w.text) ws.length acc sec)
      ws

theorem prependQuote_time (w : Word) : (prependQuote w).time = w.time := by
  unfold prependQuote
  split <;> rfl

theorem appendQuote_time (w : Word) : (appendQuote w).time = w.time := by
  unfold appendQuote
  split <;> rfl

theorem addTag_time (w : Word) (t : String) : (addTag w t).time = w.time := by
  unfold addTag
  split <;> rfl

theorem modifyAt_map_time (f : Word → Word) (hf : ∀ w, (f w).time = w.time) :
    ∀ (i : ℕ) (ws : List Word),
      (modifyAt f i ws).map (fun w => w.time) = ws.map (fun w => w.time)
  | i, [] => by cases i <;> rfl
  | 0, w :: ws => by simp [modifyAt, hf w]
  | n + 1, w :: ws => by simp [modifyAt, modifyAt_map_time f hf n ws]

theorem applyBestMatch_map_time (ws : List Word) (m : Option (List ℕ)) :
    (applyBestMatch ws m).map (fun w => w.time) = ws.map (fun w => w.time) := by
  match m with
  | none => rfl
  | some [] => rfl
  | some (p :: rest) =>
    unfold applyBestMatch
    have hfold : ∀ (l : List ℕ) (acc : List Word),
        (l.foldl (fun acc pos => modifyAt (fun w => addTag w "quoted") pos acc) acc).map
            (fun w => w.time) =
          acc.map (fun w => w.time) := by
      intro l
      induction l with
      | nil => intro acc; rfl
      | cons q qs ih =>
        intro acc
        simp only [List.foldl_cons]
        rw [ih, modifyAt_map_time _ (fun w => addTag_time w "quoted") q acc]
    simp only
    rw [hfold, modifyAt_map_time _ appendQuote_time, modifyAt_map_time _ prependQuote_time]

theorem applyQuoteSection_map_time (ow twn : List (List Char)) (n : ℕ)
    (ws : List Word) (sec : List Char) :
    (applyQuoteSection ow twn n ws sec).map (fun w => w.time) = ws.map (fun w => w.time) := by
  unfold applyQuoteSection
  split
  · rfl
  · split
    · rfl
    · exact applyBestMatch_map_time _ _

/-- The quote tagger mutates only word text and semantic tags: every word's
time span (hence the time order of the words) is untouched. -/
theorem apply_quotes_map_time (ws : List Word) (txt : String) :
    (apply_quotes_from_original_text ws txt).map (fun w => w.time) =
      ws.map (fun w => w.time) := by
  unfold apply_quotes_from_original_text
  split
  · rfl
  split
  · rfl
  have H : ∀ (l : List (List Char)) (acc : List Word),
      acc.map (fun w => w.time) = ws.map (fun w => w.time) →
      (l.foldl (fun acc sec =>
          applyQuoteSection (normalizeTokens txt) (ws.map fun w => normalizeChars w.text)
            ws.length acc sec) acc).map (fun w => w.time) =
        ws.map (fun w => w.time) := by
    intro l
    induction l with
    | nil => intro acc h; exact h
    | cons sec rest ih =>
      intro acc h
      simp only [List.foldl_cons]
      exact ih _ (by rw [applyQuoteSection_map_time]; exact h)
  exact H _ ws rfl

/-- **C8.** For the original text `He said "stop now" and left.` and the
six-word transcript `[he, said, stop, now, and, left]` with arbitrary
strictly increasing timestamps, the quote tagger tags exactly `stop` and
`now` with "quoted", prepends a double quote to `stop`'s text, appends one
to `now`'s text, and leaves every other word untouched. -/
theorem apply_quotes_scenario (t1 s1 t2 s2 t3 s3 t4 s4 t5 s5 t6 s6 : ℚ)
    (hinc : t1 < s1 ∧ s1 < t2 ∧ t2 < s2 ∧ s2 < t3 ∧ t3 < s3 ∧ s3 < t4 ∧ t4 < s4 ∧
      s4 < t5 ∧ t5 < s5 ∧ s5 < t6 ∧ t6 < s6) :
    apply_quotes_from_original_text
      [⟨"he", ⟨t1, s1⟩, []⟩, ⟨"said", ⟨t2, s2⟩, []⟩, ⟨"stop", ⟨t3, s3⟩, []⟩,
       ⟨"now", ⟨t4, s4⟩, []⟩, ⟨"and", ⟨t5, s5⟩, []⟩, ⟨"left", ⟨t6, s6⟩, []⟩]
      "He said \"stop now\" and left." =
      [⟨"he", ⟨t1, s1⟩, []⟩, ⟨"said", ⟨t2, s2⟩, []⟩, ⟨"\"stop", ⟨t3, s3⟩, ["quoted"]⟩,
       ⟨"now\"", ⟨t4, s4⟩, ["quoted"]⟩, ⟨"and", ⟨t5, s5⟩, []⟩, ⟨"left", ⟨t6, s6⟩, []⟩] := by
  have h2 : runScanGo
      [['h', 'e'], ['s', 'a', 'i', 'd'], ['s', 't', 'o', 'p'], ['n', 'o', 'w'],
       ['a', 'n', 'd'], ['l', 'e', 'f', 't']] 6 1 2 0 0 0 []
      [['s', 't', 'o', 'p'], ['n', 'o', 'w']] = (2, [2, 3]) := rfl
  have h3 : runScanGo
      [['h', 'e'], ['s', 'a', 'i', 'd'], ['s', 't', 'o', 'p'], ['n', 'o', 'w'],
       ['a', 'n', 'd'], ['l', 'e', 'f', 't']] 6 1 3 0 0 0 []
      [['s', 't', 'o', 'p'], ['n', 'o', 'w']] = (0, []) := rfl
  have h1x : runScanGo
      [['h', 'e'], ['s', 'a', 'i', 'd'], ['s', 't', 'o', 'p'], ['n', 'o', 'w'],
       ['a', 'n', 'd'], ['l', 'e', 'f', 't']] 6 1 1 0 0 0 []
      [['s', 't', 'o', 'p'], ['n', 'o', 'w']] = (0, []) := rfl
  have h4 : runScanGo
      [['h', 'e'], ['s', 'a', 'i', 'd'], ['s', 't', 'o', 'p'], ['n', 'o', 'w'],
       ['a', 'n', 'd'], ['l', 'e', 'f', 't']] 6 1 4 0 0 0 []
      [['s', 't', 'o', 'p'], ['n', 'o', 'w']] = (0, []) := rfl
  have h0 : runScanGo
      [['h', 'e'], ['s', 'a', 'i', 'd'], ['s', 't', 'o', 'p'], ['n', 'o', 'w'],
       ['a', 'n', 'd'], ['l', 'e', 'f', 't']] 6 1 0 0 0 0 []
      [['s', 't', 'o', 'p'], ['n', 'o', 'w']] = (0, []) := rfl
  have h5 : runScanGo
      [['h', 'e'], ['s', 'a', 'i', 'd'], ['s', 't', 'o', 'p'], ['n', 'o', 'w'],
       ['a', 'n', 'd'], ['l', 'e', 'f', 't']] 6 1 5 0 0 0 []
      [['s', 't', 'o', 'p'], ['n', 'o', 'w']] = (0, []) := rfl
  have hbm : quoteBestMatch
      [['h', 'e'], ['s', 'a', 'i', 'd'], ['s', 't', 'o', 'p'], ['n', 'o', 'w'],
       ['a', 'n', 'd'], ['l', 'e', 'f', 't']] 6
      [['s', 't', 'o', 'p'], ['n', 'o', 'w']] 2 = (1, some [2, 3]) := by
    unfold quoteBestMatch
    rw [show searchPositions 2 6 = [2, 3, 1, 4, 0, 5] from rfl]
    simp only [List.foldl_cons, List.foldl_nil]
    norm_num [h2, h3, h1x, h4, h0, h5]
  unfold apply_quotes_from_original_text
  rw [show extractQuotedSections "He said \"stop now\" and left." =
    [['s', 't', 'o', 'p', ' ', 'n', 'o', 'w']] from rfl]
  rw [if_neg (by simp), if_neg (by simp)]
  simp only [List.foldl_cons, List.foldl_nil]
  unfold applyQuoteSection
  rw [show splitWs (cleanChars ['s', 't', 'o', 'p', ' ', 'n', 'o', 'w']) =
    [['s', 't', 'o', 'p'], ['n', 'o', 'w']] from rfl]
  rw [if_neg (by simp)]
  rw [show findTokenRun [['s', 't', 'o', 'p'], ['n', 'o', 'w']]
    (normalizeTokens "He said \"stop now\" and left.") = some 2 from rfl]
  dsimp only
  rw [show List.map (fun w => normalizeChars w.text)
      [(⟨"he", ⟨t1, s1⟩, []⟩ : Word), ⟨"said", ⟨t2, s2⟩, []⟩, ⟨"stop", ⟨t3, s3⟩, []⟩,
       ⟨"now", ⟨t4, s4⟩, []⟩, ⟨"and", ⟨t5, s5⟩, []⟩, ⟨"left", ⟨t6, s6⟩, []⟩] =
    [['h', 'e'], ['s', 'a', 'i', 'd'], ['s', 't', 'o', 'p'], ['n', 'o', 'w'],
     ['a', 'n', 'd'], ['l', 'e', 'f', 't']] from rfl]
  rw [show ([(⟨"he", ⟨t1, s1⟩, []⟩ : Word), ⟨"said", ⟨t2, s2⟩, []⟩, ⟨"stop", ⟨t3, s3⟩, []⟩,
       ⟨"now", ⟨t4, s4⟩, []⟩, ⟨"and", ⟨t5, s5⟩, []⟩,
       ⟨"left", ⟨t6, s6⟩, []⟩] : List Word).length = 6 from rfl]
  rw [show (2 * 6 / max 1
      (normalizeTokens "He said \"stop now\" and left.").length) = 2 from rfl]
  rw [hbm]
  rfl

/-- Witness for C8: the scenario at the concrete strictly increasing
timestamps 0, 1, ..., 11. -/
theorem apply_quotes_scenario_witness :
    apply_quotes_from_original_text
      [⟨"he", ⟨0, 1⟩, []⟩, ⟨"said", ⟨2, 3⟩, []⟩, ⟨"stop", ⟨4, 5⟩, []⟩,
       ⟨"now", ⟨6, 7⟩, []⟩, ⟨"and", ⟨8, 9⟩, []⟩, ⟨"left", ⟨10, 11⟩, []⟩]
      "He said \"stop now\" and left." =
      [⟨"he", ⟨0, 1⟩, []⟩, ⟨"said", ⟨2, 3⟩, []⟩, ⟨"\"stop", ⟨4, 5⟩, ["quoted"]⟩,
       ⟨"now\"", ⟨6, 7⟩, ["quoted"]⟩, ⟨"and", ⟨8, 9⟩, []⟩, ⟨"left", ⟨10, 11⟩, []⟩] :=
  apply_quotes_scenario 0 1 2 3 4 5 6 7 8 9 10 11 (by norm_num)

/-! ## Speed rescaling of the persisted transcript (`adjust_time_in_dict`
inside `AudioPipeline.adjust_transcription_timings`, `audio.py`)

The persisted transcript JSON is modelled as a JSON value tree with ℚ
numbers. -/

inductive Json where
  | num : ℚ → Json
  | str : String → Json
  | bool : Bool → Json
  | null : Json
  | arr : List Json → Json
  | obj : List (String × Json) → Json

/-- `isinstance(value, (int, float))`. -/
def Json.isNum : Json → Bool
  | .num _ => true
  | _ => false

/-- Divide a numeric leaf by the speed multiplier. -/
def Json.divNum : Json → ℚ → Json
  | .num q, m => .num (q / m)
  | j, _ => j

/-- `key in ["start", "end"]`. -/
def isTimeKey (k : String) : Bool := k = "start" || k = "end"

mutual

/-- `adjust_time_in_dict(data)`: in a dict, a numeric value under a key
literally named "start" or "end" is divided by the speed multiplier and any
other value is recursed into; list items are recursed into; all other
leaves are left alone. -/
def adjust_time_in_dict (m : ℚ) : Json → Json
  | .num q => .num q
  | .str s => .str s
  | .bool b => .bool b
  | .null => .null
  | .arr xs => .arr (adjustArr m xs)
  | .obj fs => .obj (adjustObj m fs)

/-- The `for item in data: adjust_time_in_dict(item)` loop. -/
def adjustArr (m : ℚ) : List Json → List Json
  | [] => []
  | x :: xs => adjust_time_in_dict m x :: adjustArr m xs

/-- The `for key, value in data.items()` loop. -/
def adjustObj (m : ℚ) : List (String × Json) → List (String × Json)
  | [] => []
  | (k, v) :: fs =>
    (if isTimeKey k && v.isNum then (k, v.divNum m) else (k, adjust_time_in_dict m v)) ::
      adjustObj m fs

end

mutual

/-- All numeric leaves in traversal order, each flagged with whether it sits
directly under a "start"/"end" dictionary key (i.e. whether the rescaler
divides it). -/
def numLeaves (flag : Bool) : Json → List (Bool × ℚ)
  | .num q => [(flag, q)]
  | .str _ => []
  | .bool _ => []
  | .null => []
  | .arr xs => numLeavesArr xs
  | .obj fs => numLeavesObj fs

def numLeavesArr : List Json → List (Bool × ℚ)
  | [] => []
  | x :: xs => numLeaves false x ++ numLeavesArr xs

def numLeavesObj : List (String × Json) → List (Bool × ℚ)
  | [] => []
  | (k, v) :: fs => numLeaves (isTimeKey k) v ++ numLeavesObj fs

end

mutual

/-- The tree with every number erased to 0: keys, strings, booleans, nulls
and the whole nesting structure. -/
def scaffold : Json → Json
  | .num _ => .num 0
  | .str s => .str s
  | .bool b => .bool b
  | .null => .null
  | .arr xs => .arr (scaffoldArr xs)
  | .obj fs => .obj (scaffoldObj fs)

def scaffoldArr : List Json → List Json
  | [] => []
  | x :: xs => scaffold x :: scaffoldArr xs

def scaffoldObj : List (String × Json) → List (String × Json)
  | [] => []
  | (k, v) :: fs => (k, scaffold v) :: scaffoldObj fs

end

/-- `title_duration /= speed_multiplier` (`audio.py`, speed-adjustment
branch of `_process_audio_for_text`). -/
def adjustTitleDuration (m t : ℚ) : ℚ := t / m

theorem adjust_isNum (m : ℚ) (j : Json) :
    (adjust_time_in_dict m j).isNum = j.isNum := by
  cases j <;> rfl

theorem isNum_exists {v : Json} (h : v.isNum = true) : ∃ q, v = .num q := by
  cases v <;> simp_all [Json.isNum]

theorem numLeaves_not_num {j : Json} (h : j.isNum = false) (b : Bool) :
    numLeaves b j = numLeaves false j := by
  cases j <;> simp_all [Json.isNum, numLeaves]

/-- The per-leaf transformation the rescaler performs: a numeric leaf
directly under a "start"/"end" key (flag true) is divided by the
multiplier, every other numeric leaf is untouched. -/
def rescaleLeaf (m : ℚ) (bq : Bool × ℚ) : Bool × ℚ :=
  (bq.1, if bq.1 then bq.2 / m else bq.2)

mutual
theorem adjust_roundtrip_aux (s : ℚ) (hs : s ≠ 0) :
    ∀ j, adjust_time_in_dict (1/s) (adjust_time_in_dict s j) = j
  | .num q => rfl
  | .str t => rfl
  | .bool b => rfl
  | .null => rfl
  | .arr xs => by
      simp only [adjust_time_in_dict, adjustArr_roundtrip_aux s hs xs]
  | .obj fs => by
      simp only [adjust_time_in_dict, adjustObj_roundtrip_aux s hs fs]
theorem adjustArr_roundtrip_aux (s : ℚ) (hs : s ≠ 0) :
    ∀ xs, adjustArr (1/s) (adjustArr s xs) = xs
  | [] => rfl
  | x :: xs => by
      simp only [adjustArr, adjust_roundtrip_aux s hs x, adjustArr_roundtrip_aux s hs xs]
theorem adjustObj_roundtrip_aux (s : ℚ) (hs : s ≠ 0) :
    ∀ fs, adjustObj (1/s) (adjustObj s fs) = fs
  | [] => rfl
  | (k, v) :: fs => by
      by_cases h : (isTimeKey k && v.isNum) = true
      · obtain ⟨q, rfl⟩ : ∃ q, v = .num q := by
          cases v <;> simp_all [Json.isNum]
        have e1 : adjustObj s ((k, Json.num q) :: fs) =
            (k, Json.num (q / s)) :: adjustObj s fs := by
          simp only [adjustObj]
          rw [if_pos h]
          simp only [Json.divNum]
        rw [e1]
        have h2 : (isTimeKey k && (Json.num (q / s)).isNum) = true := by
          simpa [Json.isNum] using h
        simp only [adjustObj]
        rw [if_pos h2]
        simp only [Json.divNum, adjustObj_roundtrip_aux s hs fs]
        have hq : q / s / (1 / s) = q := by
          field_simp
        rw [hq]
      · have e1 : adjustObj s ((k, v) :: fs) =
            (k, adjust_time_in_dict s v) :: adjustObj s fs := by
          simp only [adjustObj]
          rw [if_neg h]
        rw [e1]
        have hne : (adjust_time_in_dict s v).isNum = v.isNum := by cases v <;> rfl
        have h2 : ¬(isTimeKey k && (adjust_time_in_dict s v).isNum) = true := by
          rw [hne]; exact h
        simp only [adjustObj]
        rw [if_neg h2]
        rw [adjust_roundtrip_aux s hs v, adjustObj_roundtrip_aux s hs fs]
end

mutual
theorem scaffold_adjust_aux (m : ℚ) :
    ∀ j, scaffold (adjust_time_in_dict m j) = scaffold j
  | .num q => rfl
  | .str t => rfl
  | .bool b => rfl
  | .null => rfl
  | .arr xs => by
      simp only [adjust_time_in_dict, scaffold, scaffoldArr_adjust_aux m xs]
  | .obj fs => by
      simp only [adjust_time_in_dict, scaffold, scaffoldObj_adjust_aux m fs]
theorem scaffoldArr_adjust_aux (m : ℚ) :
    ∀ xs, scaffoldArr (adjustArr m xs) = scaffoldArr xs
  | [] => rfl
  | x :: xs => by
      simp only [adjustArr, scaffoldArr, scaffold_adjust_aux m x,
        scaffoldArr_adjust_aux m xs]
theorem scaffoldObj_adjust_aux (m : ℚ) :
    ∀ fs, scaffoldObj (adjustObj m fs) = scaffoldObj fs
  | [] => rfl
  | (k, v) :: fs => by
      by_cases h : (isTimeKey k && v.isNum) = true
      · obtain ⟨q, rfl⟩ : ∃ q, v = .num q := by cases v <;> simp_all [Json.isNum]
        have e1 : adjustObj m ((k, Json.num q) :: fs) =
            (k, Json.num (q / m)) :: adjustObj m fs := by
          simp only [adjustObj]; rw [if_pos h]; simp only [Json.divNum]
        rw [e1]
        simp only [scaffoldObj, scaffold, scaffoldObj_adjust_aux m fs]
      · have e1 : adjustObj m ((k, v) :: fs) =
            (k, adjust_time_in_dict m v) :: adjustObj m fs := by
          simp only [adjustObj]; rw [if_neg h]
        rw [e1]
        simp only [scaffoldObj, scaffold_adjust_aux m v, scaffoldObj_adjust_aux m fs]
end

mutual
theorem numLeaves_adjust_aux (m : ℚ) :
    ∀ j, numLeaves false (adjust_time_in_dict m j) =
      (numLeaves false j).map (rescaleLeaf m)
  | .num q => by simp [numLeaves, adjust_time_in_dict, rescaleLeaf]
  | .str t => rfl
  | .bool b => rfl
  | .null => rfl
  | .arr xs => by
      simp only [adjust_time_in_dict, numLeaves, numLeavesArr_adjust_aux m xs]
  | .obj fs => by
      simp only [adjust_time_in_dict, numLeaves, numLeavesObj_adjust_aux m fs]
theorem numLeavesArr_adjust_aux (m : ℚ) :
    ∀ xs, numLeavesArr (adjustArr m xs) = (numLeavesArr xs).map (rescaleLeaf m)
  | [] => rfl
  | x :: xs => by
      simp only [adjustArr, numLeavesArr, List.map_append,
        numLeaves_adjust_aux m x, numLeavesArr_adjust_aux m xs]
theorem numLeavesObj_adjust_aux (m : ℚ) :
    ∀ fs, numLeavesObj (adjustObj m fs) = (numLeavesObj fs).map (rescaleLeaf m)
  | [] => rfl
  | (k, v) :: fs => by
      by_cases h : (isTimeKey k && v.isNum) = true
      · obtain ⟨q, rfl⟩ : ∃ q, v = .num q := by cases v <;> simp_all [Json.isNum]
        have hk : isTimeKey k = true := by simpa [Json.isNum] using h
        have e1 : adjustObj m ((k, Json.num q) :: fs) =
            (k, Json.num (q / m)) :: adjustObj m fs := by
          simp only [adjustObj]; rw [if_pos h]; simp only [Json.divNum]
        rw [e1]
        simp only [numLeavesObj, numLeaves, List.map_append,
          numLeavesObj_adjust_aux m fs, hk, rescaleLeaf, List.map_cons,
          List.map_nil, if_pos]
      · have e1 : adjustObj m ((k, v) :: fs) =
            (k, adjust_time_in_dict m v) :: adjustObj m fs := by
          simp only [adjustObj]; rw [if_neg h]
        rw [e1]
        simp only [numLeavesObj, List.map_append, numLeavesObj_adjust_aux m fs]
        congr 1
        by_cases hv : v.isNum = true
        · obtain ⟨q, rfl⟩ := isNum_exists hv
          have hk : isTimeKey k = false := by
            simp [Json.isNum] at h
            simpa using h
          simp [adjust_time_in_dict, numLeaves, hk, rescaleLeaf]
        · have hvf : v.isNum = false := by simpa using hv
          have h1 : (adjust_time_in_dict m v).isNum = false := by
            rw [adjust_isNum]; exact hvf
          rw [numLeaves_not_num h1, numLeaves_not_num hvf, numLeaves_adjust_aux m v]
end

/-- C6: `adjust_time_in_dict` divides exactly the numeric values stored
under keys literally named "start" or "end" by the speed multiplier
(recursive walk), leaving everything else unchanged: the number-erased
scaffold of the tree is preserved, and the flagged numeric-leaf sequence
is transformed pointwise by `rescaleLeaf` (flagged leaves divided,
unflagged leaves identical). Rescaling by s then by 1/s reproduces every
original timestamp exactly (hence within 1e-6) for any s > 0, and the
title duration, divided by the same multiplier, round-trips likewise. -/
theorem adjust_transcription_timings_rescale :
    (∀ (m : ℚ) (j : Json), scaffold (adjust_time_in_dict m j) = scaffold j) ∧
    (∀ (m : ℚ) (j : Json), numLeaves false (adjust_time_in_dict m j) =
      (numLeaves false j).map (rescaleLeaf m)) ∧
    (∀ (s : ℚ), 0 < s → ∀ j, adjust_time_in_dict (1/s) (adjust_time_in_dict s j) = j) ∧
    (∀ (s t : ℚ), 0 < s → adjustTitleDuration (1/s) (adjustTitleDuration s t) = t) := by
  refine ⟨scaffold_adjust_aux, numLeaves_adjust_aux, ?_, ?_⟩
  · intro s hs j
    exact adjust_roundtrip_aux s (ne_of_gt hs) j
  · intro s t hs
    have hs0 : s ≠ 0 := ne_of_gt hs
    unfold adjustTitleDuration
    field_simp

/-- C6 witness: rescaling a small transcript tree by 2 and back by 1/2
restores it, likewise a title duration of 5 seconds. -/
theorem adjust_transcription_timings_rescale_witness :
    adjust_time_in_dict (1/2)
        (adjust_time_in_dict 2
          (Json.obj [("start", .num 3), ("text", .str "hi"),
            ("words", .arr [Json.obj [("start", .num 1), ("end", .num 2)]])])) =
      Json.obj [("start", .num 3), ("text", .str "hi"),
        ("words", .arr [Json.obj [("start", .num 1), ("end", .num 2)]])] ∧
    adjustTitleDuration (1/2) (adjustTitleDuration 2 5) = 5 :=
  ⟨adjust_transcription_timings_rescale.2.2.1 2 (by norm_num) _,
   adjust_transcription_timings_rescale.2.2.2 2 5 (by norm_num)⟩

/-! ## Pipeline ordering invariant -/

/-- `mapTimestamp` on a non-empty keep list returns `some` exactly the
accumulated compressed time, and only at or after the first keep start. -/
theorem mapTimestamp_cons_eq_some (s e : ℚ) (rest : List (ℚ × ℚ)) (t v : ℚ)
    (h : mapTimestamp ((s, e) :: rest) t = some v) :
    s ≤ t ∧ v = mapGo ((s, e) :: rest) t 0 := by
  simp only [mapTimestamp] at h
  by_cases ht : t < s
  · simp [ht] at h
  · rw [if_neg ht] at h
    exact ⟨le_of_not_lt ht, (Option.some_inj.mp h).symm⟩

/-- Remapped start times are monotone along a well-formed alignment: if one
character ends no later than the next starts, the remapped start of the
first is at most the remapped start of the second. -/
theorem remapPair_start_mono (s e : ℚ) (rest : List (ℚ × ℚ))
    (hwf : segsWF ((s, e) :: rest)) (sta ena stb enb : ℚ)
    (ha : sta ≤ ena) (hab : ena ≤ stb) :
    (remapPair ((s, e) :: rest) sta ena).1 ≤ (remapPair ((s, e) :: rest) stb enb).1 := by
  have hwfp : ∀ p ∈ (s, e) :: rest, p.1 ≤ p.2 := hwf.1
  rcases hb1 : mapTimestamp ((s, e) :: rest) stb with _ | nsb
  · -- next start still before the first keep interval: previous char too
    have hstb : stb < s := (mapTimestamp_cons_eq_none_iff s e rest stb).mp hb1
    have hena : ena < s := lt_of_le_of_lt hab hstb
    have hsta : sta < s := lt_of_le_of_lt ha hena
    have ha1 : mapTimestamp ((s, e) :: rest) sta = none :=
      (mapTimestamp_cons_eq_none_iff s e rest sta).mpr hsta
    have ha2 : mapTimestamp ((s, e) :: rest) ena = none :=
      (mapTimestamp_cons_eq_none_iff s e rest ena).mpr hena
    have hct : closestTime ((s, e) :: rest) sta = some 0 :=
      closestTime_of_before s e rest hwf sta hsta
    have hA : (remapPair ((s, e) :: rest) sta ena).1 = 0 := by
      simp [remapPair, ha1, ha2, hct]
    rw [hA]
    rcases hb2 : mapTimestamp ((s, e) :: rest) enb with _ | neb
    · have hctb : closestTime ((s, e) :: rest) stb = some 0 :=
        closestTime_of_before s e rest hwf stb hstb
      simp [remapPair, hb1, hb2, hctb]
    · have : (remapPair ((s, e) :: rest) stb enb).1 = max 0 (neb - 1/100) := by
        simp only [remapPair, hb1, hb2]
        split <;> rfl
      rw [this]
      exact le_max_left _ _
  · -- next start maps inside the kept timeline
    obtain ⟨hsstb, hnsb⟩ := mapTimestamp_cons_eq_some s e rest stb nsb hb1
    have hbstart : (remapPair ((s, e) :: rest) stb enb).1 = nsb := by
      rcases hb2 : mapTimestamp ((s, e) :: rest) enb with _ | neb
      · simp [remapPair, hb1, hb2]
      · simp only [remapPair, hb1, hb2]
        split <;> rfl
    rw [hbstart, hnsb]
    rcases ha1 : mapTimestamp ((s, e) :: rest) sta with _ | nsa
    · rcases ha2 : mapTimestamp ((s, e) :: rest) ena with _ | nea
      · have hsta : sta < s := (mapTimestamp_cons_eq_none_iff s e rest sta).mp ha1
        have hct : closestTime ((s, e) :: rest) sta = some 0 :=
          closestTime_of_before s e rest hwf sta hsta
        simp only [remapPair, ha1, ha2, hct]
        exact mapGo_nonneg _ stb hwfp 0 le_rfl
      · obtain ⟨hsena, hnea⟩ := mapTimestamp_cons_eq_some s e rest ena nea ha2
        have hstarta : (remapPair ((s, e) :: rest) sta ena).1 = max 0 (nea - 1/100) := by
          simp only [remapPair, ha1, ha2]
          split <;> rfl
        rw [hstarta, hnea]
        refine max_le (mapGo_nonneg _ stb hwfp 0 le_rfl) ?_
        have := mapGo_mono ((s, e) :: rest) hwfp ena stb hab 0
        linarith
    · obtain ⟨hssta, hnsa⟩ := mapTimestamp_cons_eq_some s e rest sta nsa ha1
      have hstarta : (remapPair ((s, e) :: rest) sta ena).1 = nsa := by
        rcases ha2 : mapTimestamp ((s, e) :: rest) ena with _ | nea
        · simp [remapPair, ha1, ha2]
        · simp only [remapPair, ha1, ha2]
          split <;> rfl
      rw [hstarta, hnsa]
      exact mapGo_mono ((s, e) :: rest) hwfp sta stb (le_trans ha hab) 0

/-- Chain lifting: the remap loop sends an alignment whose characters do not
overlap (each ends no later than the next starts, starts before ends) to one
sorted by start time. -/
theorem remap_chain_start (s e : ℚ) (rest : List (ℚ × ℚ))
    (hwf : segsWF ((s, e) :: rest)) :
    ∀ chars : List (Char × ℚ × ℚ),
      (∀ p ∈ chars, p.2.1 ≤ p.2.2) →
      List.Chain' (fun a b => a.2.2 ≤ b.2.1) chars →
      List.Chain' (fun a b => a.2.1 ≤ b.2.1)
        (chars.map (remapChar ((s, e) :: rest))) := by
  intro chars
  induction chars with
  | nil => intro _ _; simp
  | cons x xs ih =>
    intro hwfc hchain
    cases xs with
    | nil => simp
    | cons y ys =>
      rw [List.map_cons, List.map_cons, List.chain'_cons]
      rw [List.chain'_cons] at hchain
      constructor
      · show (remapPair _ x.2.1 x.2.2).1 ≤ (remapPair _ y.2.1 y.2.2).1
        exact remapPair_start_mono s e rest hwf x.2.1 x.2.2 y.2.1 y.2.2
          (hwfc x (by simp)) hchain.1
      · rw [← List.map_cons]
        exact ih (fun p hp => hwfc p (by simp [hp])) hchain.2

/-- The sequence of values the JSON rescaler divides: all numeric leaves
directly under "start"/"end" keys, in traversal order. -/
def startEndValues (j : Json) : List ℚ :=
  (numLeaves false j).filterMap fun bq => if bq.1 then some bq.2 else none

theorem filterMap_rescaleLeaf (m : ℚ) :
    ∀ l : List (Bool × ℚ),
      (l.map (rescaleLeaf m)).filterMap (fun bq => if bq.1 then some bq.2 else none) =
        (l.filterMap (fun bq => if bq.1 then some bq.2 else none)).map (· / m) := by
  intro l
  induction l with
  | nil => rfl
  | cons bq rest ih =>
    obtain ⟨b, q⟩ := bq
    cases b <;> simp [rescaleLeaf, List.filterMap_cons, ih]

/-- The rescaler divides every start/end value by the multiplier, in order. -/
theorem startEndValues_adjust (m : ℚ) (j : Json) :
    startEndValues (adjust_time_in_dict m j) = (startEndValues j).map (· / m) := by
  unfold startEndValues
  rw [numLeaves_adjust_aux, filterMap_rescaleLeaf]

/-- C4 counterexample: keep list [(1,2)] is well-formed, the alignment
[('a',0,3), ('b',0.5,0.75)] is sorted by start time, yet the remap sends the
first character (silence-straddling, start in silence) to start 0.99 and the
second (entirely inside silence) to start 0, reversing the order. -/
theorem adjust_elevenlabs_timing_reorders :
    segsWF [((1 : ℚ), 2)] ∧
    List.Chain' (fun a b : Char × ℚ × ℚ => a.2.1 ≤ b.2.1)
      [('a', 0, 3), ('b', 1/2, 3/4)] ∧
    adjust_elevenlabs_timing [((1 : ℚ), 2)] [('a', 0, 3), ('b', 1/2, 3/4)] =
      [('a', 99/100, 1), ('b', 0, 1/100)] ∧
    ¬ List.Chain' (fun a b : Char × ℚ × ℚ => a.2.1 ≤ b.2.1)
      [('a', (99 : ℚ)/100, 1), ('b', 0, 1/100)] := by
  have hwf : segsWF [((1 : ℚ), 2)] := by
    constructor
    · intro p hp
      simp only [List.mem_singleton] at hp
      subst hp
      norm_num
    · simp
  refine ⟨hwf, ?_, ?_, ?_⟩
  · norm_num [List.chain'_cons, List.chain'_singleton]
  · have h1 : mapTimestamp [((1 : ℚ), 2)] 0 = none := by
      rw [mapTimestamp_cons_eq_none_iff]
      norm_num
    have h2 : mapTimestamp [((1 : ℚ), 2)] 3 = some 1 := by
      simp only [mapTimestamp]
      rw [if_neg (by norm_num)]
      rw [mapGo_cons]
      norm_num [mapGo]
    have h3 : mapTimestamp [((1 : ℚ), 2)] (1/2) = none := by
      rw [mapTimestamp_cons_eq_none_iff]
      norm_num
    have h4 : mapTimestamp [((1 : ℚ), 2)] (3/4) = none := by
      rw [mapTimestamp_cons_eq_none_iff]
      norm_num
    have hct : closestTime [((1 : ℚ), 2)] (1/2) = some 0 :=
      closestTime_of_before 1 2 [] hwf (1/2) (by norm_num)
    have hmax : max (0 : ℚ) (1 - 1/100) = 99/100 := by
      rw [max_eq_right (by norm_num)]
      norm_num
    have e1 : remapPair [((1 : ℚ), 2)] 0 3 = (99/100, 1) := by
      simp only [remapPair, h1, h2]
      rw [if_neg (by rw [hmax]; norm_num), hmax]
    have e2 : remapPair [((1 : ℚ), 2)] (1/2) (3/4) = (0, 1/100) := by
      simp only [remapPair, h3, h4, hct]
      norm_num
    show (if ([((1 : ℚ), 2)] : List (ℚ × ℚ)).isEmpty then _ else _) = _
    rw [if_neg (by simp)]
    simp only [List.map_cons, List.map_nil, remapChar]
    rw [e1, e2]
  · norm_num [List.chain'_cons]

/-- C4 (amended): ordering by start time is preserved by each pipeline
transformation under the alignment's well-formedness: the character remap
maps an alignment whose characters are non-overlapping (start before end,
end no later than the next start) to one sorted by start time, synthesized
times included; quote tagging never changes any word's time (so never
reorders); speed rescaling by a positive multiplier preserves the order of
the start/end values of the transcript tree. -/
theorem pipeline_order_preservation :
    (∀ (s e : ℚ) (rest : List (ℚ × ℚ)), segsWF ((s, e) :: rest) →
      ∀ chars : List (Char × ℚ × ℚ),
        (∀ p ∈ chars, p.2.1 ≤ p.2.2) →
        List.Chain' (fun a b => a.2.2 ≤ b.2.1) chars →
        List.Chain' (fun a b => a.2.1 ≤ b.2.1)
          (adjust_elevenlabs_timing ((s, e) :: rest) chars)) ∧
    (∀ (ws : List Word) (txt : String),
      (apply_quotes_from_original_text ws txt).map (fun w => w.time) =
        ws.map (fun w => w.time)) ∧
    (∀ (m : ℚ), 0 < m → ∀ j : Json,
      List.Chain' (fun a b => a ≤ b) (startEndValues j) →
      List.Chain' (fun a b => a ≤ b) (startEndValues (adjust_time_in_dict m j))) := by
  refine ⟨?_, apply_quotes_map_time, ?_⟩
  · intro s e rest hwf chars hwfc hchain
    unfold adjust_elevenlabs_timing
    rw [if_neg (by simp)]
    exact remap_chain_start s e rest hwf chars hwfc hchain
  · intro m hm j hchain
    rw [startEndValues_adjust, List.chain'_map]
    refine List.Chain'.imp ?_ hchain
    intro a b hab
    exact (div_le_div_right hm).mpr hab

/-- C4 witness: a concrete run of each conjunct. -/
theorem pipeline_order_preservation_witness :
    List.Chain' (fun a b : Char × ℚ × ℚ => a.2.1 ≤ b.2.1)
      (adjust_elevenlabs_timing [((0 : ℚ), 10)] [('a', 0, 1), ('b', 2, 3)]) ∧
    (apply_quotes_from_original_text [⟨"hi", ⟨0, 1⟩, []⟩] "hi").map (fun w => w.time) =
      [(⟨"hi", ⟨0, 1⟩, []⟩ : Word)].map (fun w => w.time) ∧
    List.Chain' (fun a b : ℚ => a ≤ b)
      (startEndValues (adjust_time_in_dict 2
        (Json.obj [("start", Json.num 1), ("end", Json.num 3)]))) :=
  ⟨pipeline_order_preservation.1 0 10 []
      (by
        refine ⟨?_, by simp⟩
        intro p hp
        simp only [List.mem_singleton] at hp
        subst hp
        norm_num)
      [('a', 0, 1), ('b', 2, 3)]
      (by
        intro p hp
        fin_cases hp <;> norm_num)
      (by norm_num [List.chain'_cons]),
   pipeline_order_preservation.2.1 [⟨"hi", ⟨0, 1⟩, []⟩] "hi",
   pipeline_order_preservation.2.2 2 (by norm_num)
      (Json.obj [("start", Json.num 1), ("end", Json.num 3)])
      (by
        have h : startEndValues (Json.obj [("start", Json.num 1), ("end", Json.num 3)]) =
            [1, 3] := rfl
        rw [h]
        norm_num [List.chain'_cons])⟩
